import Mathlib

/-!
Verification of the `bevy_keymapper` crate (`src/lib.rs`) against its
specification.

The embedding models the crate's data and control flow:

* `SysCallback` models `Box<dyn System<In = (), Out = ()>>` as used by the
  crate: a one-time `initialize` phase, a fallible `run` phase that mutates
  the world and may report a `RunSystemError`, and an `apply_deferred` phase
  that flushes staged commands into the world.  All three are modelled as
  functions on an abstract world state `W`; errors are drawn from an
  abstract type `E`.
* `Keymap` models `Keymap<T>` (`label`, `keycode`, `system`,
  `initialized`), `Keymap.new` its constructor (lib.rs lines 157-164,
  `initialized = false`).
* `Keymapper` models the `Keymapper<T>` resource, `Keymapper.remove` the
  `retain`-based removal (lib.rs lines 64-66), `Keymapper.add_keymap` the
  `push` performed by `KeymapperAppExt::add_keymap` (lib.rs line 263).
* `runFrom` models the dispatch loop of `Keymapper::run` (lib.rs lines
  98-116): scan the keymaps in table order; for each keymap whose keycode
  equals the dispatched keycode, initialize it if `initialized` is false
  (setting the flag), run it, propagate an error immediately (the `?`
  operator, which aborts the loop), and otherwise apply its deferred
  commands before moving on.  The function additionally records a trace of
  `Event`s (indexed by the keymap's position in the table) so that
  properties about which callbacks executed, and in which order, can be
  stated; the trace is pure instrumentation and drives no control flow.
* `runKeycodes` models the loop of `keymaps_runner_system` (lib.rs lines
  194-204): dispatch each just-pressed keycode in turn, aborting the frame
  on the first error (the `?` inside `resource_scope`).
* `keymaps_runner_system` models the whole runner system (lib.rs lines
  187-209): it returns, besides the final table/world/trace, the list of
  errors logged by the `error!` call at the runner's boundary.
* `runFrames` chains whole frames: each frame's error is logged and
  dropped, and the next frame proceeds on the resulting table and world,
  matching the host scheduler's behaviour of calling the runner once per
  frame.
-/

namespace BevyKeymapper

/-- A bound callback, modelling the `dyn System` object held by a keymap:
`initialize` prepares it against the world, `run` executes it (returning
the mutated world and an optional error, modelling
`Result<(), RunSystemError>`), and `apply_deferred` flushes its staged
commands into the world. -/
structure SysCallback (W E : Type) where
  initSys : W → W
  run : W → W × Option E
  apply_deferred : W → W

/-- One entry of the binding table, modelling `Keymap<T>` from lib.rs. -/
structure Keymap (L K W E : Type) where
  label : L
  keycode : K
  system : SysCallback W E
  initialized : Bool

variable {L K W E : Type}

/-- Constructor of a keymap, modelling `Keymap::new`: the `initialized`
flag starts out `false`. -/
def Keymap.new (label : L) (keycode : K) (system : SysCallback W E) :
    Keymap L K W E :=
  { label := label, keycode := keycode, system := system, initialized := false }

/-- The binding-table resource, modelling `Keymapper<T>`. -/
structure Keymapper (L K W E : Type) where
  keymaps : List (Keymap L K W E)

/-- Constructor, modelling `Keymapper::new`. -/
def Keymapper.new (keymaps : List (Keymap L K W E)) : Keymapper L K W E :=
  { keymaps := keymaps }

/-- Removal by label, modelling `Keymapper::remove`, which is
`self.keymaps.retain(|k| k.label != label)`. -/
def Keymapper.remove [DecidableEq L] (m : Keymapper L K W E) (label : L) :
    Keymapper L K W E :=
  { keymaps := m.keymaps.filter (fun k => decide (k.label ≠ label)) }

/-- Appending a binding, modelling the `manager.keymaps.push(Keymap::new(..))`
performed by `KeymapperAppExt::add_keymap`. -/
def Keymapper.add_keymap (m : Keymapper L K W E) (label : L) (keycode : K)
    (system : SysCallback W E) : Keymapper L K W E :=
  { keymaps := m.keymaps ++ [Keymap.new label keycode system] }

/-- Observable dispatch events, indexed by a keymap's position in the table:
`init i` records `system.initialize` being called on keymap `i`, `exec i`
records `system.run` being called on it, `applyDef i` records
`system.apply_deferred` being called on it. -/
inductive Event where
  | init (i : Nat)
  | exec (i : Nat)
  | applyDef (i : Nat)
deriving DecidableEq, Repr

/-- The table index an event refers to. -/
def Event.idx : Event → Nat
  | .init i => i
  | .exec i => i
  | .applyDef i => i

/-- Result of a dispatch: the updated table, the updated world, the trace of
events, and the error propagated out of the loop (if any). -/
structure RunResult (L K W E : Type) where
  keymaps : List (Keymap L K W E)
  world : W
  trace : List Event
  error : Option E

/-- World after the lazy-initialization step of lib.rs lines 105-108: the
callback's `initialize` runs only when the flag is still false. -/
def initWorld (km : Keymap L K W E) (world : W) : W :=
  if km.initialized then world else km.system.initSys world

/-- Trace of the lazy-initialization step: an `init` event is emitted only
when the flag is still false. -/
def initTrace (km : Keymap L K W E) (i : Nat) : List Event :=
  if km.initialized then [] else [Event.init i]

/-- The dispatch loop of `Keymapper::run` (lib.rs lines 103-113), with the
head of the table sitting at table index `i`.  For each keymap whose
keycode matches: initialize lazily (setting `initialized` before the run,
as the source does), run the callback, abort the whole loop on error (the
`?` on line 110), and otherwise apply its deferred commands and continue. -/
def runFrom [DecidableEq K] (i : Nat) :
    List (Keymap L K W E) → W → K → RunResult L K W E
  | [], world, _ => ⟨[], world, [], none⟩
  | km :: rest, world, keycode =>
    if km.keycode = keycode then
      match km.system.run (initWorld km world) with
      | (w2, some e) =>
        ⟨{ km with initialized := true } :: rest, w2,
          initTrace km i ++ [Event.exec i], some e⟩
      | (w2, none) =>
        let r := runFrom (i+1) rest (km.system.apply_deferred w2) keycode
        ⟨{ km with initialized := true } :: r.keymaps, r.world,
          initTrace km i ++ Event.exec i :: Event.applyDef i :: r.trace, r.error⟩
    else
      let r := runFrom (i+1) rest world keycode
      ⟨km :: r.keymaps, r.world, r.trace, r.error⟩

/-- `Keymapper::run` (lib.rs lines 98-116): dispatch one keycode over the
whole table. -/
def Keymapper.run [DecidableEq K] (m : Keymapper L K W E) (world : W)
    (keycode : K) : RunResult L K W E :=
  runFrom 0 m.keymaps world keycode

/-- The loop of `keymaps_runner_system` (lib.rs lines 198-200): dispatch
each just-pressed keycode in turn; the `?` aborts the frame on the first
error. -/
def runKeycodes [DecidableEq K] (kms : List (Keymap L K W E)) (world : W)
    (pressed : List K) : RunResult L K W E :=
  match pressed with
  | [] => ⟨kms, world, [], none⟩
  | kc :: rest =>
    let r := runFrom 0 kms world kc
    match r.error with
    | some e => ⟨r.keymaps, r.world, r.trace, some e⟩
    | none =>
      let r2 := runKeycodes r.keymaps r.world rest
      ⟨r2.keymaps, r2.world, r.trace ++ r2.trace, r2.error⟩

/-- Result of one invocation of the runner system: the `logged` field lists
the errors logged by the `error!` call at the runner's boundary (lib.rs
lines 206-208). -/
structure SystemResult (L K W E : Type) where
  keymaps : List (Keymap L K W E)
  world : W
  trace : List Event
  logged : List E

/-- The runner system `keymaps_runner_system` (lib.rs lines 187-209):
dispatch every just-pressed keycode, then log the propagated error, if
any, exactly once. -/
def keymaps_runner_system [DecidableEq K] (pressed : List K)
    (m : Keymapper L K W E) (world : W) : SystemResult L K W E :=
  let r := runKeycodes m.keymaps world pressed
  ⟨r.keymaps, r.world, r.trace, r.error.toList⟩

/-- State carried across frames: table, world and the concatenated trace. -/
structure LifeResult (L K W E : Type) where
  keymaps : List (Keymap L K W E)
  world : W
  trace : List Event

/-- A sequence of frames: each frame runs `keymaps_runner_system` on its
just-pressed key set; its error (if any) is logged and dropped, and the
next frame proceeds on the resulting table and world. -/
def runFrames [DecidableEq K] (kms : List (Keymap L K W E)) (world : W)
    (frames : List (List K)) : LifeResult L K W E :=
  match frames with
  | [] => ⟨kms, world, []⟩
  | ps :: rest =>
    let r := runKeycodes kms world ps
    let r2 := runFrames r.keymaps r.world rest
    ⟨r2.keymaps, r2.world, r.trace ++ r2.trace⟩

/-- A callback that never reports an error, whatever the world state. -/
def neverFails (s : SysCallback W E) : Prop := ∀ w, (s.run w).2 = none

/-- A callback that reports an error on every execution. -/
def alwaysFails (s : SysCallback W E) : Prop := ∀ w, (s.run w).2 ≠ none

/-- Table indices (from `i` for the head) of the keymaps whose keycode
matches `kc`, in table order. -/
def matchIdxs [DecidableEq K] (i : Nat) :
    List (Keymap L K W E) → K → List Nat
  | [], _ => []
  | km :: rest, kc =>
    if km.keycode = kc then i :: matchIdxs (i+1) rest kc
    else matchIdxs (i+1) rest kc

/-- Projection of an execution event to its index. -/
def execIdx : Event → Option Nat
  | .exec j => some j
  | _ => none

/-- Pointwise relation between a keymap before and after a dispatch: the
label, keycode and callback are untouched and the `initialized` flag can
only go from `false` to `true`. -/
def Pres (a b : Keymap L K W E) : Prop :=
  b.label = a.label ∧ b.keycode = a.keycode ∧ b.system = a.system ∧
    (a.initialized = true → b.initialized = true)

/-- The `initialized` flag of the keymap at table index `t`, as an
`Option Bool` (`none` when `t` is out of range). -/
def flagAt (kms : List (Keymap L K W E)) (t : Nat) : Option Bool :=
  (kms[t]?).map Keymap.initialized

/-- Shape of a dispatch trace: a sequence of blocks, each an optional
`init j` followed by `exec j` and `applyDef j`, except that an aborted
trace (flag `true`) ends with a bare `exec j` whose `applyDef` never
happened. -/
inductive TraceShape : List Event → Bool → Prop where
  | nil : TraceShape [] false
  | abort (j : Nat) : TraceShape [Event.exec j] true
  | lazy (j : Nat) (t : List Event) (b : Bool) :
      TraceShape t b → TraceShape (Event.init j :: t) b
  | step (j : Nat) (t : List Event) (b : Bool) :
      TraceShape t b → TraceShape (Event.exec j :: Event.applyDef j :: t) b

/-- Example callback over a `Nat` world that always succeeds; its three
phases make distinct modifications so their effects are observable. -/
def okSysN : SysCallback Nat Unit :=
  { initSys := fun w => w + 1, run := fun w => (w + 10, none),
    apply_deferred := fun w => w + 100 }

/-- Example callback over a `Nat` world whose execution always fails. -/
def failSysN : SysCallback Nat Unit :=
  { initSys := fun w => w, run := fun w => (w, some ()),
    apply_deferred := fun w => w }

theorem Pres.refl (a : Keymap L K W E) : Pres a a :=
  ⟨rfl, rfl, rfl, fun h => h⟩

theorem Pres.trans {a b c : Keymap L K W E} (h1 : Pres a b) (h2 : Pres b c) :
    Pres a c :=
  ⟨h2.1.trans h1.1, h2.2.1.trans h1.2.1, h2.2.2.1.trans h1.2.2.1,
    fun h => h2.2.2.2 (h1.2.2.2 h)⟩

theorem runFrom_length [DecidableEq K] (i : Nat) (kms : List (Keymap L K W E))
    (w : W) (kc : K) : (runFrom i kms w kc).keymaps.length = kms.length := by
  induction kms generalizing i w with
  | nil => simp [runFrom]
  | cons km rest ih =>
    by_cases hkc : km.keycode = kc
    · rcases hrun : km.system.run (initWorld km w) with ⟨w2, oe⟩
      cases oe with
      | some e => simp [runFrom, hkc, hrun]
      | none => simp [runFrom, hkc, hrun, ih]
    · simp [runFrom, hkc, ih]

theorem mem_initTrace {km : Keymap L K W E} {i : Nat} {ev : Event}
    (h : ev ∈ initTrace km i) : ev = Event.init i := by
  unfold initTrace at h
  split at h
  · simp at h
  · simpa using h

theorem runFrom_pres [DecidableEq K] (i : Nat) (kms : List (Keymap L K W E))
    (w : W) (kc : K) :
    List.Forall₂ Pres kms (runFrom i kms w kc).keymaps := by
  induction kms generalizing i w with
  | nil => simp [runFrom]
  | cons km rest ih =>
    by_cases hkc : km.keycode = kc
    · rcases hrun : km.system.run (initWorld km w) with ⟨w2, oe⟩
      cases oe with
      | some e =>
        simp only [runFrom, if_pos hkc, hrun]
        exact List.Forall₂.cons ⟨rfl, rfl, rfl, fun _ => rfl⟩
          (List.forall₂_same.2 fun a _ => Pres.refl a)
      | none =>
        simp only [runFrom, if_pos hkc, hrun]
        exact List.Forall₂.cons ⟨rfl, rfl, rfl, fun _ => rfl⟩ (ih (i+1) _)
    · simp only [runFrom, if_neg hkc]
      exact List.Forall₂.cons (Pres.refl km) (ih (i+1) w)

theorem runFrom_pres_get [DecidableEq K] (i : Nat) (kms : List (Keymap L K W E))
    (w : W) (kc : K) (t : Nat) (h : t < kms.length)
    (h2 : t < (runFrom i kms w kc).keymaps.length) :
    Pres (kms.get ⟨t, h⟩) ((runFrom i kms w kc).keymaps.get ⟨t, h2⟩) :=
  (List.forall₂_iff_get.1 (runFrom_pres i kms w kc)).2 t h h2

theorem runFrom_trace_mem [DecidableEq K] (i : Nat)
    (kms : List (Keymap L K W E)) (w : W) (kc : K) :
    ∀ ev ∈ (runFrom i kms w kc).trace, ∃ t, ∃ h : t < kms.length,
      ev.idx = i + t ∧ (kms.get ⟨t, h⟩).keycode = kc := by
  induction kms generalizing i w with
  | nil => simp [runFrom]
  | cons km rest ih =>
    intro ev hev
    by_cases hkc : km.keycode = kc
    · rcases hrun : km.system.run (initWorld km w) with ⟨w2, oe⟩
      cases oe with
      | some e =>
        simp only [runFrom, if_pos hkc, hrun] at hev
        rcases List.mem_append.1 hev with hev | hev
        · exact ⟨0, Nat.succ_pos _,
            by rw [mem_initTrace hev]; simp [Event.idx], by simpa using hkc⟩
        · have hv : ev = Event.exec i := by simpa using hev
          exact ⟨0, Nat.succ_pos _, by rw [hv]; simp [Event.idx],
            by simpa using hkc⟩
      | none =>
        simp only [runFrom, if_pos hkc, hrun] at hev
        rcases List.mem_append.1 hev with hev | hev
        · exact ⟨0, Nat.succ_pos _,
            by rw [mem_initTrace hev]; simp [Event.idx], by simpa using hkc⟩
        · rcases List.mem_cons.1 hev with hv | hev
          · exact ⟨0, Nat.succ_pos _, by rw [hv]; simp [Event.idx],
              by simpa using hkc⟩
          · rcases List.mem_cons.1 hev with hv | hev
            · exact ⟨0, Nat.succ_pos _, by rw [hv]; simp [Event.idx],
                by simpa using hkc⟩
            · obtain ⟨t, ht, hidx, hkt⟩ :=
                ih (i+1) (km.system.apply_deferred w2) ev hev
              exact ⟨t+1, Nat.succ_lt_succ ht, by omega, by simpa using hkt⟩
    · simp only [runFrom, if_neg hkc] at hev
      obtain ⟨t, ht, hidx, hkt⟩ := ih (i+1) w ev hev
      exact ⟨t+1, Nat.succ_lt_succ ht, by omega, by simpa using hkt⟩

theorem runFrom_trace_idx_ge [DecidableEq K] (i : Nat)
    (kms : List (Keymap L K W E)) (w : W) (kc : K) :
    ∀ ev ∈ (runFrom i kms w kc).trace, i ≤ ev.idx := by
  intro ev hev
  obtain ⟨t, _, hidx, _⟩ := runFrom_trace_mem i kms w kc ev hev
  omega

theorem runFrom_idx_not_mem [DecidableEq K] (i : Nat)
    (kms : List (Keymap L K W E)) (w : W) (kc : K) (t : Nat)
    (h : t < kms.length) (hne : (kms.get ⟨t, h⟩).keycode ≠ kc) :
    ∀ ev ∈ (runFrom i kms w kc).trace, ev.idx ≠ i + t := by
  intro ev hev heq
  obtain ⟨t', ht', hidx, hkt⟩ := runFrom_trace_mem i kms w kc ev hev
  have hteq : t = t' := by omega
  subst hteq
  exact hne hkt

theorem runFrom_exec_not_mem [DecidableEq K] (i : Nat)
    (kms : List (Keymap L K W E)) (w : W) (kc : K) (t : Nat)
    (h : t < kms.length) (hne : (kms.get ⟨t, h⟩).keycode ≠ kc) :
    Event.exec (i + t) ∉ (runFrom i kms w kc).trace := by
  intro hmem
  exact runFrom_idx_not_mem i kms w kc t h hne _ hmem rfl

theorem runFrom_error_none [DecidableEq K] (i : Nat)
    (kms : List (Keymap L K W E)) (w : W) (kc : K)
    (hok : ∀ km ∈ kms, km.keycode = kc → neverFails km.system) :
    (runFrom i kms w kc).error = none := by
  induction kms generalizing i w with
  | nil => simp [runFrom]
  | cons km rest ih =>
    by_cases hkc : km.keycode = kc
    · rcases hrun : km.system.run (initWorld km w) with ⟨w2, oe⟩
      have hnone : oe = none := by
        have hnf := hok km (by simp) hkc (initWorld km w)
        rw [hrun] at hnf
        exact hnf
      subst hnone
      simp only [runFrom, if_pos hkc, hrun]
      exact ih (i+1) _ (fun k hk => hok k (by simp [hk]))
    · simp only [runFrom, if_neg hkc]
      exact ih (i+1) w (fun k hk => hok k (by simp [hk]))

theorem runFrom_exec_mem [DecidableEq K] (i : Nat)
    (kms : List (Keymap L K W E)) (w : W) (kc : K) (t : Nat)
    (h : t < kms.length) (hkct : (kms.get ⟨t, h⟩).keycode = kc)
    (hpre : ∀ km ∈ kms.take t, km.keycode = kc → neverFails km.system) :
    Event.exec (i + t) ∈ (runFrom i kms w kc).trace := by
  induction kms generalizing i w t with
  | nil => simp at h
  | cons km rest ih =>
    cases t with
    | zero =>
      have hkc : km.keycode = kc := by simpa using hkct
      rcases hrun : km.system.run (initWorld km w) with ⟨w2, oe⟩
      cases oe with
      | some e => simp [runFrom, if_pos hkc, hrun]
      | none => simp [runFrom, if_pos hkc, hrun]
    | succ t =>
      have hkct' : (rest.get ⟨t, by simpa using h⟩).keycode = kc := by
        simpa using hkct
      by_cases hkc : km.keycode = kc
      · have hnf : neverFails km.system :=
          hpre km (by simp [List.take_succ_cons]) hkc
        rcases hrun : km.system.run (initWorld km w) with ⟨w2, oe⟩
        have hnone : oe = none := by
          have hx := hnf (initWorld km w)
          rw [hrun] at hx
          exact hx
        subst hnone
        simp only [runFrom, if_pos hkc, hrun]
        have hmem := ih (i+1) (km.system.apply_deferred w2) t
          (by simpa using h) hkct'
          (fun k hk => hpre k (by simp [List.take_succ_cons, hk]))
        simp only [List.mem_append, List.mem_cons]
        right; right; right
        have heq : i + 1 + t = i + (t + 1) := by omega
        rw [heq] at hmem
        exact hmem
      · simp only [runFrom, if_neg hkc]
        have hmem := ih (i+1) w t (by simpa using h) hkct'
          (fun k hk => hpre k (by simp [List.take_succ_cons, hk]))
        have heq : i + 1 + t = i + (t + 1) := by omega
        rw [heq] at hmem
        exact hmem

theorem runFrom_trace_nodup [DecidableEq K] (i : Nat)
    (kms : List (Keymap L K W E)) (w : W) (kc : K) :
    (runFrom i kms w kc).trace.Nodup := by
  induction kms generalizing i w with
  | nil => simp [runFrom]
  | cons km rest ih =>
    by_cases hkc : km.keycode = kc
    · rcases hrun : km.system.run (initWorld km w) with ⟨w2, oe⟩
      cases oe with
      | some e =>
        simp only [runFrom, if_pos hkc, hrun, initTrace]
        split <;> simp
      | none =>
        have hge := runFrom_trace_idx_ge (i+1) rest
          (km.system.apply_deferred w2) kc
        simp only [runFrom, if_pos hkc, hrun, initTrace]
        have hex : Event.exec i ∉ (runFrom (i+1) rest
            (km.system.apply_deferred w2) kc).trace := by
          intro hmem
          have hx := hge _ hmem
          simp [Event.idx] at hx
        have hap : Event.applyDef i ∉ (runFrom (i+1) rest
            (km.system.apply_deferred w2) kc).trace := by
          intro hmem
          have hx := hge _ hmem
          simp [Event.idx] at hx
        have hin : Event.init i ∉ (runFrom (i+1) rest
            (km.system.apply_deferred w2) kc).trace := by
          intro hmem
          have hx := hge _ hmem
          simp [Event.idx] at hx
        split
        · simp only [List.nil_append, List.nodup_cons]
          exact ⟨by simp [hex, hap], hap, ih (i+1) _⟩
        · simp only [List.singleton_append, List.nodup_cons]
          exact ⟨by simp [hex, hap, hin], by simp [hex, hap], hap, ih (i+1) _⟩
    · simp only [runFrom, if_neg hkc]
      exact ih (i+1) w

theorem forall₂_pres_trans {a b c : List (Keymap L K W E)}
    (h1 : List.Forall₂ Pres a b) (h2 : List.Forall₂ Pres b c) :
    List.Forall₂ Pres a c := by
  induction h1 generalizing c with
  | nil => cases h2; exact List.Forall₂.nil
  | cons hab h1' ih =>
    cases h2 with
    | cons hbc h2' => exact List.Forall₂.cons (hab.trans hbc) (ih h2')

theorem forall₂_pres_mem {kms kms' : List (Keymap L K W E)}
    (h : List.Forall₂ Pres kms kms') :
    ∀ km' ∈ kms', ∃ km ∈ kms, Pres km km' := by
  induction h with
  | nil => simp
  | cons hab h' ih =>
    intro km' hmem
    rcases List.mem_cons.1 hmem with hv | hmem
    · exact ⟨_, by simp, hv ▸ hab⟩
    · obtain ⟨km, hk, hp⟩ := ih km' hmem
      exact ⟨km, by simp [hk], hp⟩

theorem runKeycodes_pres [DecidableEq K] (kms : List (Keymap L K W E))
    (w : W) (ps : List K) :
    List.Forall₂ Pres kms (runKeycodes kms w ps).keymaps := by
  induction ps generalizing kms w with
  | nil => simpa [runKeycodes] using List.forall₂_same.2 fun a _ => Pres.refl a
  | cons kc rest ih =>
    cases hre : (runFrom 0 kms w kc).error with
    | some e =>
      simp only [runKeycodes, hre]
      exact runFrom_pres 0 kms w kc
    | none =>
      simp only [runKeycodes, hre]
      exact forall₂_pres_trans (runFrom_pres 0 kms w kc)
        (ih (runFrom 0 kms w kc).keymaps (runFrom 0 kms w kc).world)

theorem runKeycodes_length [DecidableEq K] (kms : List (Keymap L K W E))
    (w : W) (ps : List K) :
    (runKeycodes kms w ps).keymaps.length = kms.length :=
  (List.Forall₂.length_eq (runKeycodes_pres kms w ps)).symm

theorem runKeycodes_pres_get [DecidableEq K] (kms : List (Keymap L K W E))
    (w : W) (ps : List K) (t : Nat) (h : t < kms.length)
    (h2 : t < (runKeycodes kms w ps).keymaps.length) :
    Pres (kms.get ⟨t, h⟩) ((runKeycodes kms w ps).keymaps.get ⟨t, h2⟩) :=
  (List.forall₂_iff_get.1 (runKeycodes_pres kms w ps)).2 t h h2

theorem runKeycodes_error_none [DecidableEq K] (kms : List (Keymap L K W E))
    (w : W) (ps : List K)
    (hok : ∀ kc ∈ ps, ∀ km ∈ kms, km.keycode = kc → neverFails km.system) :
    (runKeycodes kms w ps).error = none := by
  induction ps generalizing kms w with
  | nil => simp [runKeycodes]
  | cons kc rest ih =>
    have hre : (runFrom 0 kms w kc).error = none :=
      runFrom_error_none 0 kms w kc (hok kc (by simp))
    simp only [runKeycodes, hre]
    refine ih _ _ ?_
    intro kc' hkc' km' hkm' hcode
    obtain ⟨km, hkm, hp⟩ := forall₂_pres_mem (runFrom_pres 0 kms w kc) km' hkm'
    have hsys : km'.system = km.system := hp.2.2.1
    have hkcode : km'.keycode = km.keycode := hp.2.1
    rw [hsys]
    exact hok kc' (by simp [hkc']) km hkm (by rw [← hkcode]; exact hcode)

theorem runKeycodes_exec_not_mem [DecidableEq K] (kms : List (Keymap L K W E))
    (w : W) (ps : List K) (t : Nat) (h : t < kms.length)
    (hnotin : (kms.get ⟨t, h⟩).keycode ∉ ps) :
    Event.exec t ∉ (runKeycodes kms w ps).trace := by
  induction ps generalizing kms w with
  | nil => simp [runKeycodes]
  | cons kc rest ih =>
    have hne : (kms.get ⟨t, h⟩).keycode ≠ kc := by
      intro hx
      exact hnotin (List.mem_cons.2 (Or.inl hx))
    have hfirst : Event.exec t ∉ (runFrom 0 kms w kc).trace := by
      have hx := runFrom_exec_not_mem 0 kms w kc t h hne
      simpa using hx
    cases hre : (runFrom 0 kms w kc).error with
    | some e =>
      simp only [runKeycodes, hre]
      exact hfirst
    | none =>
      simp only [runKeycodes, hre]
      have h2 : t < (runFrom 0 kms w kc).keymaps.length := by
        rw [runFrom_length]; exact h
      have hpg := runFrom_pres_get 0 kms w kc t h h2
      have hrec : Event.exec t ∉ (runKeycodes (runFrom 0 kms w kc).keymaps
          (runFrom 0 kms w kc).world rest).trace := by
        refine ih _ _ h2 ?_
        rw [hpg.2.1]
        intro hx
        exact hnotin (List.mem_cons.2 (Or.inr hx))
      simp [hfirst, hrec]

theorem runKeycodes_count_exec [DecidableEq K] (kms : List (Keymap L K W E))
    (w : W) (p1 p2 : List K) (k : K) (t : Nat) (h : t < kms.length)
    (hkt : (kms.get ⟨t, h⟩).keycode = k) (hnp1 : k ∉ p1) (hnp2 : k ∉ p2)
    (hp1 : ∀ kc ∈ p1, ∀ km ∈ kms, km.keycode = kc → neverFails km.system)
    (hpre : ∀ km ∈ kms.take t, km.keycode = k → neverFails km.system) :
    ((runKeycodes kms w (p1 ++ k :: p2)).trace).count (Event.exec t) = 1 := by
  induction p1 generalizing kms w with
  | nil =>
    have hmem : Event.exec t ∈ (runFrom 0 kms w k).trace := by
      have hx := runFrom_exec_mem 0 kms w k t h hkt hpre
      simpa using hx
    have hcnt1 : ((runFrom 0 kms w k).trace).count (Event.exec t) = 1 :=
      List.count_eq_one_of_mem (runFrom_trace_nodup 0 kms w k) hmem
    cases hre : (runFrom 0 kms w k).error with
    | some e =>
      simp only [List.nil_append, runKeycodes, hre]
      exact hcnt1
    | none =>
      simp only [List.nil_append, runKeycodes, hre]
      have h2 : t < (runFrom 0 kms w k).keymaps.length := by
        rw [runFrom_length]; exact h
      have hpg := runFrom_pres_get 0 kms w k t h h2
      have hrec : Event.exec t ∉ (runKeycodes (runFrom 0 kms w k).keymaps
          (runFrom 0 kms w k).world p2).trace := by
        refine runKeycodes_exec_not_mem _ _ _ t h2 ?_
        rw [hpg.2.1, hkt]
        exact hnp2
      simp [List.count_append, hcnt1, List.count_eq_zero.2 hrec]
  | cons kc p1' ih =>
    have hknkc : k ≠ kc := by
      intro hx
      exact hnp1 (by simp [hx])
    have hre : (runFrom 0 kms w kc).error = none :=
      runFrom_error_none 0 kms w kc (hp1 kc (by simp))
    have hfirst : Event.exec t ∉ (runFrom 0 kms w kc).trace := by
      have hx := runFrom_exec_not_mem 0 kms w kc t h
        (by rw [hkt]; exact hknkc)
      simpa using hx
    simp only [List.cons_append, runKeycodes, hre]
    have h2 : t < (runFrom 0 kms w kc).keymaps.length := by
      rw [runFrom_length]; exact h
    have hpg := runFrom_pres_get 0 kms w kc t h h2
    have hrec : ((runKeycodes (runFrom 0 kms w kc).keymaps
        (runFrom 0 kms w kc).world (p1' ++ k :: p2)).trace).count
          (Event.exec t) = 1 := by
      refine ih _ _ h2 (by rw [hpg.2.1]; exact hkt)
        (fun hx => hnp1 (by simp [hx])) ?_ ?_
      · intro kc' hkc' km' hkm' hcode
        obtain ⟨km, hkm, hp⟩ := forall₂_pres_mem (runFrom_pres 0 kms w kc)
          km' hkm'
        rw [hp.2.2.1]
        exact hp1 kc' (by simp [hkc']) km hkm (by rw [← hp.2.1]; exact hcode)
      · intro km' hkm' hcode
        obtain ⟨km, hkm, hp⟩ := forall₂_pres_mem
          (List.forall₂_take t (runFrom_pres 0 kms w kc)) km' hkm'
        rw [hp.2.2.1]
        exact hpre km hkm (by rw [← hp.2.1]; exact hcode)
    simp [List.count_append, List.count_eq_zero.2 hfirst, hrec]

theorem runFrom_getElem?_initialized [DecidableEq K] (i t : Nat)
    (kms : List (Keymap L K W E)) (w : W) (kc : K) :
    ((runFrom i kms w kc).keymaps[t]?).map Keymap.initialized
      = (kms[t]?).map (fun km => km.initialized
          || decide (Event.exec (i + t) ∈ (runFrom i kms w kc).trace)) := by
  induction kms generalizing i t w with
  | nil => simp [runFrom]
  | cons km rest ih =>
    by_cases hkc : km.keycode = kc
    · rcases hrun : km.system.run (initWorld km w) with ⟨w2, oe⟩
      cases oe with
      | some e =>
        cases t with
        | zero =>
          have hmem : Event.exec (i + 0) ∈ initTrace km i ++ [Event.exec i] := by
            simp
          simp [runFrom, if_pos hkc, hrun, hmem]
        | succ t =>
          have hnot : Event.exec (i + (t+1)) ∉
              initTrace km i ++ [Event.exec i] := by
            intro hmem
            rcases List.mem_append.1 hmem with hmem | hmem
            · have hv := mem_initTrace hmem
              simp at hv
            · have hv := List.mem_singleton.1 hmem
              simp only [Event.exec.injEq] at hv
              omega
          simp [runFrom, if_pos hkc, hrun, hnot]
      | none =>
        cases t with
        | zero =>
          have hmem : Event.exec (i + 0) ∈ initTrace km i ++ Event.exec i ::
              Event.applyDef i ::
              (runFrom (i+1) rest (km.system.apply_deferred w2) kc).trace := by
            simp
          simp [runFrom, if_pos hkc, hrun, hmem]
        | succ t =>
          have harith : i + 1 + t = i + (t + 1) := by omega
          have hiff : (Event.exec (i + (t+1)) ∈ initTrace km i ++
              Event.exec i :: Event.applyDef i ::
              (runFrom (i+1) rest (km.system.apply_deferred w2) kc).trace) ↔
              Event.exec (i + (t+1)) ∈
              (runFrom (i+1) rest (km.system.apply_deferred w2) kc).trace := by
            constructor
            · intro hmem
              rcases List.mem_append.1 hmem with hmem | hmem
              · have hv := mem_initTrace hmem
                simp at hv
              · rcases List.mem_cons.1 hmem with hv | hmem
                · simp only [Event.exec.injEq] at hv
                  omega
                · rcases List.mem_cons.1 hmem with hv | hmem
                  · simp at hv
                  · exact hmem
            · intro hmem
              exact List.mem_append.2 (Or.inr (List.mem_cons.2 (Or.inr
                (List.mem_cons.2 (Or.inr hmem)))))
          have hih := ih (i+1) t (km.system.apply_deferred w2)
          rw [harith] at hih
          simp only [runFrom, if_pos hkc, hrun, List.getElem?_cons_succ]
          simp only [hiff]
          exact hih
    · cases t with
      | zero =>
        have hnot : Event.exec i ∉ (runFrom (i+1) rest w kc).trace := by
          intro hmem
          have h2 := runFrom_trace_idx_ge (i+1) rest w kc _ hmem
          simp only [Event.idx] at h2
          omega
        simp [runFrom, if_neg hkc, hnot]
      | succ t =>
        have harith : i + 1 + t = i + (t + 1) := by omega
        have hih := ih (i+1) t w
        rw [harith] at hih
        simp only [runFrom, if_neg hkc, List.getElem?_cons_succ]
        exact hih

theorem runFrom_init_mem_iff [DecidableEq K] (i t : Nat)
    (kms : List (Keymap L K W E)) (w : W) (kc : K) :
    Event.init (i + t) ∈ (runFrom i kms w kc).trace ↔
      ((kms[t]?).map Keymap.initialized = some false ∧
        Event.exec (i + t) ∈ (runFrom i kms w kc).trace) := by
  induction kms generalizing i t w with
  | nil => simp [runFrom]
  | cons km rest ih =>
    by_cases hkc : km.keycode = kc
    · rcases hrun : km.system.run (initWorld km w) with ⟨w2, oe⟩
      cases oe with
      | some e =>
        cases t with
        | zero =>
          cases hini : km.initialized with
          | true => simp [runFrom, if_pos hkc, hrun, initTrace, hini]
          | false => simp [runFrom, if_pos hkc, hrun, initTrace, hini]
        | succ t =>
          have hinot : Event.init (i + (t+1)) ∉
              initTrace km i ++ [Event.exec i] := by
            intro hmem
            rcases List.mem_append.1 hmem with hmem | hmem
            · have hv := mem_initTrace hmem
              simp only [Event.init.injEq] at hv
              omega
            · have hv := List.mem_singleton.1 hmem
              simp at hv
          have hexnot : Event.exec (i + (t+1)) ∉
              initTrace km i ++ [Event.exec i] := by
            intro hmem
            rcases List.mem_append.1 hmem with hmem | hmem
            · have hv := mem_initTrace hmem
              simp at hv
            · have hv := List.mem_singleton.1 hmem
              simp only [Event.exec.injEq] at hv
              omega
          simp [runFrom, if_pos hkc, hrun, hinot, hexnot]
      | none =>
        cases t with
        | zero =>
          have hrnot : Event.init i ∉
              (runFrom (i+1) rest (km.system.apply_deferred w2) kc).trace := by
            intro hmem
            have h2 := runFrom_trace_idx_ge (i+1) rest
              (km.system.apply_deferred w2) kc _ hmem
            simp only [Event.idx] at h2
            omega
          cases hini : km.initialized with
          | true => simp [runFrom, if_pos hkc, hrun, initTrace, hini, hrnot]
          | false => simp [runFrom, if_pos hkc, hrun, initTrace, hini]
        | succ t =>
          have harith : i + 1 + t = i + (t + 1) := by omega
          have hiffi : (Event.init (i + (t+1)) ∈ initTrace km i ++
              Event.exec i :: Event.applyDef i ::
              (runFrom (i+1) rest (km.system.apply_deferred w2) kc).trace) ↔
              Event.init (i + (t+1)) ∈
              (runFrom (i+1) rest (km.system.apply_deferred w2) kc).trace := by
            constructor
            · intro hmem
              rcases List.mem_append.1 hmem with hmem | hmem
              · have hv := mem_initTrace hmem
                simp only [Event.init.injEq] at hv
                omega
              · rcases List.mem_cons.1 hmem with hv | hmem
                · simp at hv
                · rcases List.mem_cons.1 hmem with hv | hmem
                  · simp at hv
                  · exact hmem
            · intro hmem
              exact List.mem_append.2 (Or.inr (List.mem_cons.2 (Or.inr
                (List.mem_cons.2 (Or.inr hmem)))))
          have hiffe : (Event.exec (i + (t+1)) ∈ initTrace km i ++
              Event.exec i :: Event.applyDef i ::
              (runFrom (i+1) rest (km.system.apply_deferred w2) kc).trace) ↔
              Event.exec (i + (t+1)) ∈
              (runFrom (i+1) rest (km.system.apply_deferred w2) kc).trace := by
            constructor
            · intro hmem
              rcases List.mem_append.1 hmem with hmem | hmem
              · have hv := mem_initTrace hmem
                simp at hv
              · rcases List.mem_cons.1 hmem with hv | hmem
                · simp only [Event.exec.injEq] at hv
                  omega
                · rcases List.mem_cons.1 hmem with hv | hmem
                  · simp at hv
                  · exact hmem
            · intro hmem
              exact List.mem_append.2 (Or.inr (List.mem_cons.2 (Or.inr
                (List.mem_cons.2 (Or.inr hmem)))))
          have hih := ih (i+1) t (km.system.apply_deferred w2)
          rw [harith] at hih
          simp only [runFrom, if_pos hkc, hrun, List.getElem?_cons_succ]
          simp only [hiffi, hiffe]
          exact hih
    · cases t with
      | zero =>
        have hinot : Event.init i ∉ (runFrom (i+1) rest w kc).trace := by
          intro hmem
          have h2 := runFrom_trace_idx_ge (i+1) rest w kc _ hmem
          simp only [Event.idx] at h2
          omega
        have hexnot : Event.exec i ∉ (runFrom (i+1) rest w kc).trace := by
          intro hmem
          have h2 := runFrom_trace_idx_ge (i+1) rest w kc _ hmem
          simp only [Event.idx] at h2
          omega
        simp [runFrom, if_neg hkc, hinot, hexnot]
      | succ t =>
        have harith : i + 1 + t = i + (t + 1) := by omega
        have hih := ih (i+1) t w
        rw [harith] at hih
        simp only [runFrom, if_neg hkc, List.getElem?_cons_succ]
        exact hih

theorem runFrom_initialized_get [DecidableEq K] (i : Nat)
    (kms : List (Keymap L K W E)) (w : W) (kc : K) (t : Nat)
    (h : t < kms.length) (h2 : t < (runFrom i kms w kc).keymaps.length) :
    (((runFrom i kms w kc).keymaps.get ⟨t, h2⟩).initialized = true) ↔
      ((kms.get ⟨t, h⟩).initialized = true ∨
        Event.exec (i + t) ∈ (runFrom i kms w kc).trace) := by
  have hA := runFrom_getElem?_initialized i t kms w kc
  rw [List.getElem?_eq_getElem h2, List.getElem?_eq_getElem h] at hA
  simp only [Option.map_some', Option.some.injEq] at hA
  simp only [List.get_eq_getElem]
  rw [hA]
  simp [Bool.or_eq_true, decide_eq_true_eq]

theorem runFrom_init_not_mem_of_initialized [DecidableEq K] (i : Nat)
    (kms : List (Keymap L K W E)) (w : W) (kc : K) (t : Nat)
    (h : t < kms.length) (hini : (kms.get ⟨t, h⟩).initialized = true) :
    Event.init (i + t) ∉ (runFrom i kms w kc).trace := by
  intro hmem
  have hB := (runFrom_init_mem_iff i t kms w kc).1 hmem
  rw [List.getElem?_eq_getElem h] at hB
  simp only [Option.map_some', Option.some.injEq] at hB
  simp only [List.get_eq_getElem] at hini
  rw [hini] at hB
  simp at hB

theorem runFrom_exec_of_init_mem [DecidableEq K] (i : Nat)
    (kms : List (Keymap L K W E)) (w : W) (kc : K) (t : Nat)
    (hmem : Event.init (i + t) ∈ (runFrom i kms w kc).trace) :
    Event.exec (i + t) ∈ (runFrom i kms w kc).trace :=
  ((runFrom_init_mem_iff i t kms w kc).1 hmem).2

theorem runFrom_initialized_of_exec_mem [DecidableEq K] (i : Nat)
    (kms : List (Keymap L K W E)) (w : W) (kc : K) (t : Nat)
    (h2 : t < (runFrom i kms w kc).keymaps.length)
    (hmem : Event.exec (i + t) ∈ (runFrom i kms w kc).trace) :
    (((runFrom i kms w kc).keymaps.get ⟨t, h2⟩).initialized = true) := by
  have h : t < kms.length := by
    rw [← runFrom_length i kms w kc]
    exact h2
  exact (runFrom_initialized_get i kms w kc t h h2).2 (Or.inr hmem)

theorem runKeycodes_trace_idx_lt [DecidableEq K] (kms : List (Keymap L K W E))
    (w : W) (ps : List K) :
    ∀ ev ∈ (runKeycodes kms w ps).trace, ev.idx < kms.length := by
  induction ps generalizing kms w with
  | nil => simp [runKeycodes]
  | cons kc rest ih =>
    intro ev hev
    cases hre : (runFrom 0 kms w kc).error with
    | some e =>
      simp only [runKeycodes, hre] at hev
      obtain ⟨t, ht, hidx, _⟩ := runFrom_trace_mem 0 kms w kc ev hev
      omega
    | none =>
      simp only [runKeycodes, hre] at hev
      rcases List.mem_append.1 hev with hev | hev
      · obtain ⟨t, ht, hidx, _⟩ := runFrom_trace_mem 0 kms w kc ev hev
        omega
      · have hx := ih (runFrom 0 kms w kc).keymaps (runFrom 0 kms w kc).world
          ev hev
        rw [runFrom_length] at hx
        exact hx

theorem flagAt_lt {kms : List (Keymap L K W E)} {t : Nat} {b : Bool}
    (h : flagAt kms t = some b) : t < kms.length := by
  by_contra hge
  rw [flagAt, List.getElem?_eq_none (by omega)] at h
  simp at h

theorem runFrom_flag_mono [DecidableEq K] (i : Nat)
    (kms : List (Keymap L K W E)) (w : W) (kc : K) (t : Nat)
    (hini : flagAt kms t = some true) :
    flagAt (runFrom i kms w kc).keymaps t = some true := by
  have hA := runFrom_getElem?_initialized i t kms w kc
  rw [flagAt, hA]
  obtain ⟨km, hkm, hflag⟩ := Option.map_eq_some'.1 hini
  rw [hkm]
  simp [hflag]

theorem runFrom_flag_of_exec [DecidableEq K] (i : Nat)
    (kms : List (Keymap L K W E)) (w : W) (kc : K) (t : Nat)
    (h : t < kms.length)
    (hmem : Event.exec (i + t) ∈ (runFrom i kms w kc).trace) :
    flagAt (runFrom i kms w kc).keymaps t = some true := by
  have hA := runFrom_getElem?_initialized i t kms w kc
  rw [flagAt, hA, List.getElem?_eq_getElem h]
  simp [hmem]

theorem runFrom_init_not_mem_of_flag [DecidableEq K] (i : Nat)
    (kms : List (Keymap L K W E)) (w : W) (kc : K) (t : Nat)
    (hini : flagAt kms t = some true) :
    Event.init (i + t) ∉ (runFrom i kms w kc).trace := by
  intro hmem
  have hB := (runFrom_init_mem_iff i t kms w kc).1 hmem
  rw [flagAt] at hini
  rw [hini] at hB
  simp at hB

theorem runFrom_flag_of_init_mem [DecidableEq K] (i : Nat)
    (kms : List (Keymap L K W E)) (w : W) (kc : K) (t : Nat)
    (hmem : Event.init (i + t) ∈ (runFrom i kms w kc).trace) :
    flagAt (runFrom i kms w kc).keymaps t = some true := by
  have hB := (runFrom_init_mem_iff i t kms w kc).1 hmem
  have hlt : t < kms.length := by
    by_contra hge
    rw [List.getElem?_eq_none (by omega)] at hB
    simp at hB
  exact runFrom_flag_of_exec i kms w kc t hlt hB.2

theorem runKeycodes_init_stable [DecidableEq K] (kms : List (Keymap L K W E))
    (w : W) (ps : List K) (t : Nat) (hini : flagAt kms t = some true) :
    Event.init t ∉ (runKeycodes kms w ps).trace ∧
      flagAt (runKeycodes kms w ps).keymaps t = some true := by
  induction ps generalizing kms w with
  | nil => exact ⟨by simp [runKeycodes], hini⟩
  | cons kc rest ih =>
    have hfn : Event.init t ∉ (runFrom 0 kms w kc).trace := by
      have hx := runFrom_init_not_mem_of_flag 0 kms w kc t hini
      simpa using hx
    have hflag1 : flagAt (runFrom 0 kms w kc).keymaps t = some true :=
      runFrom_flag_mono 0 kms w kc t hini
    cases hre : (runFrom 0 kms w kc).error with
    | some e =>
      refine ⟨?_, ?_⟩
      · simp only [runKeycodes, hre]
        exact hfn
      · simp only [runKeycodes, hre]
        exact hflag1
    | none =>
      have hrec := ih (runFrom 0 kms w kc).keymaps (runFrom 0 kms w kc).world
        hflag1
      refine ⟨?_, ?_⟩
      · simp only [runKeycodes, hre, List.mem_append]
        intro hx
        rcases hx with hx | hx
        · exact hfn hx
        · exact hrec.1 hx
      · simp only [runKeycodes, hre]
        exact hrec.2

theorem runKeycodes_init_count [DecidableEq K] (kms : List (Keymap L K W E))
    (w : W) (ps : List K) (t : Nat) :
    ((runKeycodes kms w ps).trace).count (Event.init t) ≤ 1 ∧
      (Event.init t ∈ (runKeycodes kms w ps).trace →
        flagAt (runKeycodes kms w ps).keymaps t = some true) := by
  induction ps generalizing kms w with
  | nil =>
    refine ⟨by simp [runKeycodes], ?_⟩
    intro hx
    simp [runKeycodes] at hx
  | cons kc rest ih =>
    have hcnt1 : ((runFrom 0 kms w kc).trace).count (Event.init t) ≤ 1 :=
      List.nodup_iff_count_le_one.1 (runFrom_trace_nodup 0 kms w kc) _
    have hflag_of_mem : Event.init t ∈ (runFrom 0 kms w kc).trace →
        flagAt (runFrom 0 kms w kc).keymaps t = some true := by
      intro hmem
      exact runFrom_flag_of_init_mem 0 kms w kc t (by simpa using hmem)
    cases hre : (runFrom 0 kms w kc).error with
    | some e =>
      refine ⟨?_, ?_⟩
      · simp only [runKeycodes, hre]
        exact hcnt1
      · simp only [runKeycodes, hre]
        exact hflag_of_mem
    | none =>
      by_cases hm1 : Event.init t ∈ (runFrom 0 kms w kc).trace
      · have hstab := runKeycodes_init_stable (runFrom 0 kms w kc).keymaps
          (runFrom 0 kms w kc).world rest t (hflag_of_mem hm1)
        refine ⟨?_, ?_⟩
        · simp only [runKeycodes, hre, List.count_append]
          have hz : ((runKeycodes (runFrom 0 kms w kc).keymaps
              (runFrom 0 kms w kc).world rest).trace).count (Event.init t)
              = 0 :=
            List.count_eq_zero.2 hstab.1
          omega
        · simp only [runKeycodes, hre]
          intro _
          exact hstab.2
      · have hz1 : ((runFrom 0 kms w kc).trace).count (Event.init t) = 0 :=
          List.count_eq_zero.2 hm1
        have hrec := ih (runFrom 0 kms w kc).keymaps (runFrom 0 kms w kc).world
        refine ⟨?_, ?_⟩
        · simp only [runKeycodes, hre, List.count_append]
          omega
        · simp only [runKeycodes, hre, List.mem_append]
          intro hmem
          rcases hmem with hmem | hmem
          · exact absurd hmem hm1
          · exact hrec.2 hmem

theorem runFrames_pres [DecidableEq K] (kms : List (Keymap L K W E)) (w : W)
    (frames : List (List K)) :
    List.Forall₂ Pres kms (runFrames kms w frames).keymaps := by
  induction frames generalizing kms w with
  | nil => simpa [runFrames] using List.forall₂_same.2 fun a _ => Pres.refl a
  | cons ps rest ih =>
    simp only [runFrames]
    exact forall₂_pres_trans (runKeycodes_pres kms w ps)
      (ih (runKeycodes kms w ps).keymaps (runKeycodes kms w ps).world)

theorem runFrames_trace_idx_lt [DecidableEq K] (kms : List (Keymap L K W E))
    (w : W) (frames : List (List K)) :
    ∀ ev ∈ (runFrames kms w frames).trace, ev.idx < kms.length := by
  induction frames generalizing kms w with
  | nil => simp [runFrames]
  | cons ps rest ih =>
    intro ev hev
    simp only [runFrames, List.mem_append] at hev
    rcases hev with hev | hev
    · exact runKeycodes_trace_idx_lt kms w ps ev hev
    · have hx := ih (runKeycodes kms w ps).keymaps
        (runKeycodes kms w ps).world ev hev
      rw [runKeycodes_length] at hx
      exact hx

theorem runFrames_init_stable [DecidableEq K] (kms : List (Keymap L K W E))
    (w : W) (frames : List (List K)) (t : Nat)
    (hini : flagAt kms t = some true) :
    Event.init t ∉ (runFrames kms w frames).trace ∧
      flagAt (runFrames kms w frames).keymaps t = some true := by
  induction frames generalizing kms w with
  | nil => exact ⟨by simp [runFrames], hini⟩
  | cons ps rest ih =>
    obtain ⟨hnot1, hflag1⟩ := runKeycodes_init_stable kms w ps t hini
    have hrec := ih (runKeycodes kms w ps).keymaps
      (runKeycodes kms w ps).world hflag1
    refine ⟨?_, ?_⟩
    · simp only [runFrames, List.mem_append]
      intro hx
      rcases hx with hx | hx
      · exact hnot1 hx
      · exact hrec.1 hx
    · simp only [runFrames]
      exact hrec.2

theorem runFrames_init_count [DecidableEq K] (kms : List (Keymap L K W E))
    (w : W) (frames : List (List K)) (t : Nat) :
    ((runFrames kms w frames).trace).count (Event.init t) ≤ 1 := by
  induction frames generalizing kms w with
  | nil => simp [runFrames]
  | cons ps rest ih =>
    have hfr := runKeycodes_init_count kms w ps t
    by_cases hm1 : Event.init t ∈ (runKeycodes kms w ps).trace
    · have hstab := runFrames_init_stable (runKeycodes kms w ps).keymaps
        (runKeycodes kms w ps).world rest t (hfr.2 hm1)
      have hz : ((runFrames (runKeycodes kms w ps).keymaps
          (runKeycodes kms w ps).world rest).trace).count (Event.init t) = 0 :=
        List.count_eq_zero.2 hstab.1
      simp only [runFrames, List.count_append]
      omega
    · have hz1 : ((runKeycodes kms w ps).trace).count (Event.init t) = 0 :=
        List.count_eq_zero.2 hm1
      have hrec := ih (runKeycodes kms w ps).keymaps (runKeycodes kms w ps).world
      simp only [runFrames, List.count_append]
      omega

theorem runFrom_append_ok [DecidableEq K] (i : Nat)
    (pre tail : List (Keymap L K W E)) (w : W) (kc : K)
    (hpre : ∀ p ∈ pre, p.keycode = kc → neverFails p.system) :
    ∃ pre1 w1 tr1,
      (runFrom i (pre ++ tail) w kc).keymaps
        = pre1 ++ (runFrom (i + pre.length) tail w1 kc).keymaps ∧
      (runFrom i (pre ++ tail) w kc).trace
        = tr1 ++ (runFrom (i + pre.length) tail w1 kc).trace ∧
      (runFrom i (pre ++ tail) w kc).error
        = (runFrom (i + pre.length) tail w1 kc).error ∧
      List.Forall₂ Pres pre pre1 ∧
      (∀ ev ∈ tr1, ev.idx < i + pre.length) := by
  induction pre generalizing i w with
  | nil =>
    exact ⟨[], w, [], by simp, by simp, by simp, List.Forall₂.nil, by simp⟩
  | cons p pre' ih =>
    by_cases hkc : p.keycode = kc
    · have hnf := hpre p (by simp) hkc
      rcases hrun : p.system.run (initWorld p w) with ⟨w2, oe⟩
      have hnone : oe = none := by
        have hx := hnf (initWorld p w)
        rw [hrun] at hx
        exact hx
      subst hnone
      obtain ⟨pre1', w1, tr1', hkm, htr, herr, hpres, hidx⟩ :=
        ih (i+1) (p.system.apply_deferred w2)
          (fun q hq => hpre q (by simp [hq]))
      have harith : i + 1 + pre'.length = i + (p :: pre').length := by
        simp only [List.length_cons]
        omega
      rw [harith] at hkm htr herr hidx
      refine ⟨{ p with initialized := true } :: pre1', w1,
        initTrace p i ++ Event.exec i :: Event.applyDef i :: tr1',
        ?_, ?_, ?_, ?_, ?_⟩
      · simp only [List.cons_append, runFrom, List.append_eq, if_pos hkc, hrun]
        rw [hkm]
      · simp only [List.cons_append, runFrom, List.append_eq, if_pos hkc, hrun]
        rw [htr]
        simp [List.append_assoc]
      · simp only [List.cons_append, runFrom, List.append_eq, if_pos hkc, hrun]
        exact herr
      · exact List.Forall₂.cons ⟨rfl, rfl, rfl, fun _ => rfl⟩ hpres
      · intro ev hev
        simp only [List.length_cons]
        rcases List.mem_append.1 hev with hev | hev
        · rw [mem_initTrace hev]
          simp only [Event.idx]
          omega
        · rcases List.mem_cons.1 hev with hv | hev
          · rw [hv]
            simp only [Event.idx]
            omega
          · rcases List.mem_cons.1 hev with hv | hev
            · rw [hv]
              simp only [Event.idx]
              omega
            · have hx := hidx ev hev
              simp only [List.length_cons] at hx
              omega
    · obtain ⟨pre1', w1, tr1', hkm, htr, herr, hpres, hidx⟩ :=
        ih (i+1) w (fun q hq => hpre q (by simp [hq]))
      have harith : i + 1 + pre'.length = i + (p :: pre').length := by
        simp only [List.length_cons]
        omega
      rw [harith] at hkm htr herr hidx
      refine ⟨p :: pre1', w1, tr1', ?_, ?_, ?_, ?_, ?_⟩
      · simp only [List.cons_append, runFrom, List.append_eq, if_neg hkc]
        rw [hkm]
      · simp only [List.cons_append, runFrom, List.append_eq, if_neg hkc]
        exact htr
      · simp only [List.cons_append, runFrom, List.append_eq, if_neg hkc]
        exact herr
      · exact List.Forall₂.cons (Pres.refl p) hpres
      · exact hidx

theorem traceShape_append {t1 t2 : List Event} {b1 b : Bool}
    (h1 : TraceShape t1 b1) (h2 : TraceShape t2 b) (hb : b1 = false) :
    TraceShape (t1 ++ t2) b := by
  induction h1 with
  | nil => simpa using h2
  | abort j => simp at hb
  | lazy j t b' ht ih => exact TraceShape.lazy _ _ _ (ih hb)
  | step j t b' ht ih => exact TraceShape.step _ _ _ (ih hb)

theorem runFrom_traceShape [DecidableEq K] (i : Nat)
    (kms : List (Keymap L K W E)) (w : W) (kc : K) :
    TraceShape (runFrom i kms w kc).trace ((runFrom i kms w kc).error).isSome := by
  induction kms generalizing i w with
  | nil => exact TraceShape.nil
  | cons km rest ih =>
    by_cases hkc : km.keycode = kc
    · rcases hrun : km.system.run (initWorld km w) with ⟨w2, oe⟩
      cases oe with
      | some e =>
        cases hini : km.initialized with
        | true =>
          simp only [runFrom, if_pos hkc, hrun, initTrace, hini, if_true,
            List.nil_append]
          exact TraceShape.abort i
        | false =>
          simp only [runFrom, if_pos hkc, hrun, initTrace, hini,
            Bool.false_eq_true, if_false, List.singleton_append]
          exact TraceShape.lazy _ _ _ (TraceShape.abort i)
      | none =>
        cases hini : km.initialized with
        | true =>
          simp only [runFrom, if_pos hkc, hrun, initTrace, hini, if_true,
            List.nil_append]
          exact TraceShape.step _ _ _ (ih (i+1) _)
        | false =>
          simp only [runFrom, if_pos hkc, hrun, initTrace, hini,
            Bool.false_eq_true, if_false, List.singleton_append]
          exact TraceShape.lazy _ _ _ (TraceShape.step _ _ _ (ih (i+1) _))
    · simp only [runFrom, if_neg hkc]
      exact ih (i+1) w

theorem runKeycodes_traceShape [DecidableEq K] (kms : List (Keymap L K W E))
    (w : W) (ps : List K) :
    TraceShape (runKeycodes kms w ps).trace
      ((runKeycodes kms w ps).error).isSome := by
  induction ps generalizing kms w with
  | nil => exact TraceShape.nil
  | cons kc rest ih =>
    cases hre : (runFrom 0 kms w kc).error with
    | some e =>
      have hs := runFrom_traceShape 0 kms w kc
      rw [hre] at hs
      simp only [runKeycodes, hre]
      exact hs
    | none =>
      have hs := runFrom_traceShape 0 kms w kc
      rw [hre] at hs
      simp only [runKeycodes, hre]
      exact traceShape_append hs
        (ih (runFrom 0 kms w kc).keymaps (runFrom 0 kms w kc).world) rfl

theorem traceShape_exec_next {tr : List Event} {b : Bool}
    (hs : TraceShape tr b) : ∀ t1 j t2, tr = t1 ++ Event.exec j :: t2 →
      t2 = [] ∨ ∃ t3, t2 = Event.applyDef j :: t3 := by
  induction hs with
  | nil =>
    intro t1 j t2 h
    cases t1 <;> simp at h
  | abort j' =>
    intro t1 j t2 h
    cases t1 with
    | nil =>
      simp only [List.nil_append, List.cons.injEq] at h
      exact Or.inl h.2.symm
    | cons a t1' =>
      simp only [List.cons_append, List.cons.injEq] at h
      rcases h with ⟨-, h⟩
      cases t1' <;> simp at h
  | lazy j' t b' ht ih =>
    intro t1 j t2 h
    cases t1 with
    | nil => simp at h
    | cons a t1' =>
      simp only [List.cons_append, List.cons.injEq] at h
      exact ih t1' j t2 h.2
  | step j' t b' ht ih =>
    intro t1 j t2 h
    cases t1 with
    | nil =>
      simp only [List.nil_append, List.cons.injEq, Event.exec.injEq] at h
      exact Or.inr ⟨t, by rw [h.2.symm, h.1]⟩
    | cons a t1' =>
      simp only [List.cons_append, List.cons.injEq] at h
      rcases h with ⟨-, h⟩
      cases t1' with
      | nil => simp at h
      | cons a' t1'' =>
        simp only [List.cons_append, List.cons.injEq] at h
        exact ih t1'' j t2 h.2

theorem traceShape_applyDef_prev {tr : List Event} {b : Bool}
    (hs : TraceShape tr b) : ∀ t1 j t2, tr = t1 ++ Event.applyDef j :: t2 →
      t1.getLast? = some (Event.exec j) := by
  induction hs with
  | nil =>
    intro t1 j t2 h
    cases t1 <;> simp at h
  | abort j' =>
    intro t1 j t2 h
    cases t1 with
    | nil => simp at h
    | cons a t1' =>
      simp only [List.cons_append, List.cons.injEq] at h
      rcases h with ⟨-, h⟩
      cases t1' <;> simp at h
  | lazy j' t b' ht ih =>
    intro t1 j t2 h
    cases t1 with
    | nil => simp at h
    | cons a t1' =>
      simp only [List.cons_append, List.cons.injEq] at h
      have hlast := ih t1' j t2 h.2
      cases t1' with
      | nil => simp at hlast
      | cons a' t1'' =>
        rw [List.getLast?_cons_cons]
        exact hlast
  | step j' t b' ht ih =>
    intro t1 j t2 h
    cases t1 with
    | nil => simp at h
    | cons a t1' =>
      simp only [List.cons_append, List.cons.injEq] at h
      rcases h with ⟨ha, h⟩
      cases t1' with
      | nil =>
        simp only [List.nil_append, List.cons.injEq,
          Event.applyDef.injEq] at h
        rw [← ha, h.1]
        simp
      | cons a' t1'' =>
        simp only [List.cons_append, List.cons.injEq] at h
        have hlast := ih t1'' j t2 h.2
        cases t1'' with
        | nil => simp at hlast
        | cons a'' t1x =>
          rw [List.getLast?_cons_cons, List.getLast?_cons_cons]
          exact hlast

theorem matchIdxs_ge [DecidableEq K] (i : Nat) (kms : List (Keymap L K W E))
    (kc : K) : ∀ j ∈ matchIdxs i kms kc, i ≤ j := by
  induction kms generalizing i with
  | nil => simp [matchIdxs]
  | cons km rest ih =>
    intro j hj
    by_cases hkc : km.keycode = kc
    · simp only [matchIdxs, if_pos hkc] at hj
      rcases List.mem_cons.1 hj with hv | hj
      · omega
      · have hx := ih (i+1) j hj
        omega
    · simp only [matchIdxs, if_neg hkc] at hj
      have hx := ih (i+1) j hj
      omega

theorem matchIdxs_pairwise [DecidableEq K] (i : Nat)
    (kms : List (Keymap L K W E)) (kc : K) :
    (matchIdxs i kms kc).Pairwise (· < ·) := by
  induction kms generalizing i with
  | nil => simp [matchIdxs]
  | cons km rest ih =>
    by_cases hkc : km.keycode = kc
    · simp only [matchIdxs, if_pos hkc]
      refine List.Pairwise.cons ?_ (ih (i+1))
      intro j hj
      have hx := matchIdxs_ge (i+1) rest kc j hj
      omega
    · simp only [matchIdxs, if_neg hkc]
      exact ih (i+1)

theorem matchIdxs_mem [DecidableEq K] (i t : Nat)
    (kms : List (Keymap L K W E)) (kc : K) (h : t < kms.length) :
    ((i + t) ∈ matchIdxs i kms kc) ↔ (kms.get ⟨t, h⟩).keycode = kc := by
  induction kms generalizing i t with
  | nil => simp at h
  | cons km rest ih =>
    cases t with
    | zero =>
      by_cases hkc : km.keycode = kc
      · simp [matchIdxs, if_pos hkc, hkc]
      · simp only [matchIdxs, if_neg hkc]
        constructor
        · intro hmem
          have hx := matchIdxs_ge (i+1) rest kc _ hmem
          omega
        · intro hx
          exact absurd (by simpa using hx) hkc
    | succ t =>
      have harith : i + 1 + t = i + (t + 1) := by omega
      have hih := ih (i+1) t (by simpa using h)
      rw [harith] at hih
      by_cases hkc : km.keycode = kc
      · simp only [matchIdxs, if_pos hkc]
        rw [List.mem_cons]
        constructor
        · intro hx
          rcases hx with hx | hx
          · omega
          · simpa using hih.1 hx
        · intro hx
          exact Or.inr (hih.2 (by simpa using hx))
      · simp only [matchIdxs, if_neg hkc]
        constructor
        · intro hx
          simpa using hih.1 hx
        · intro hx
          exact hih.2 (by simpa using hx)

theorem runFrom_filterMap_execIdx [DecidableEq K] (i : Nat)
    (kms : List (Keymap L K W E)) (w : W) (kc : K)
    (hok : ∀ km ∈ kms, km.keycode = kc → neverFails km.system) :
    ((runFrom i kms w kc).trace).filterMap execIdx = matchIdxs i kms kc := by
  induction kms generalizing i w with
  | nil => simp [runFrom, matchIdxs]
  | cons km rest ih =>
    by_cases hkc : km.keycode = kc
    · rcases hrun : km.system.run (initWorld km w) with ⟨w2, oe⟩
      have hnone : oe = none := by
        have hx := hok km (by simp) hkc (initWorld km w)
        rw [hrun] at hx
        exact hx
      subst hnone
      have hit : (initTrace km i).filterMap execIdx = [] := by
        unfold initTrace
        split <;> simp [execIdx]
      simp only [runFrom, if_pos hkc, hrun, matchIdxs, List.filterMap_append,
        hit, List.nil_append, List.filterMap_cons]
      simp only [execIdx]
      rw [ih (i+1) _ (fun k hk => hok k (by simp [hk]))]
    · simp only [runFrom, if_neg hkc, matchIdxs, if_neg hkc]
      exact ih (i+1) w (fun k hk => hok k (by simp [hk]))

/-- C4: `remove(L)` removes exactly the bindings whose label equals `L`:
afterwards no binding with label `L` remains, every binding with a
different label survives (as the same entry), the survivors keep their
relative order (the result is a sublist of the original table), and when
no binding has label `L` the table is unchanged. -/
theorem c4_remove_by_label [DecidableEq L] (kms : List (Keymap L K W E))
    (lab : L) :
    (∀ km ∈ ((Keymapper.new kms).remove lab).keymaps, km.label ≠ lab) ∧
    ((Keymapper.new kms).remove lab).keymaps.Sublist kms ∧
    (∀ km ∈ kms, km.label ≠ lab →
      km ∈ ((Keymapper.new kms).remove lab).keymaps) ∧
    ((∀ km ∈ kms, km.label ≠ lab) →
      ((Keymapper.new kms).remove lab).keymaps = kms) := by
  refine ⟨?_, ?_, ?_, ?_⟩
  · intro km hm
    have hx := List.of_mem_filter hm
    simpa using hx
  · exact List.filter_sublist kms
  · intro km hm hne
    exact List.mem_filter.2 ⟨hm, by simpa using hne⟩
  · intro hall
    exact List.filter_eq_self.2 fun a ha => by simpa using hall a ha

/-- Witness for C4 on a concrete two-entry table: removing label `0` keeps
the label-`1` binding, and removal from a table without the label is a
no-op. -/
theorem c4_witness :
    (Keymap.new 1 2 okSysN ∈
      ((Keymapper.new [Keymap.new 0 1 okSysN, Keymap.new 1 2 okSysN]).remove
        (0 : Nat)).keymaps) ∧
    ((Keymapper.new [Keymap.new (1 : Nat) 2 okSysN]).remove
      (0 : Nat)).keymaps = [Keymap.new 1 2 okSysN] :=
  ⟨(c4_remove_by_label [Keymap.new 0 1 okSysN, Keymap.new 1 2 okSysN]
        0).2.2.1 _ (by simp) (by simp [Keymap.new]),
    (c4_remove_by_label [Keymap.new 1 2 okSysN] 0).2.2.2
      (by simp [Keymap.new])⟩

/-- C9: one dispatch of `Keymapper::run` never adds, removes or reorders
bindings — the table keeps its length and every position keeps its label,
keycode and callback — and the only field it may change is the
`initialized` flag, only from `false` to `true`. -/
theorem c9_run_preserves_table [DecidableEq K] (m : Keymapper L K W E)
    (w : W) (kc : K) :
    (m.run w kc).keymaps.length = m.keymaps.length ∧
    ∀ t (h : t < m.keymaps.length) (h2 : t < (m.run w kc).keymaps.length),
      ((m.run w kc).keymaps.get ⟨t, h2⟩).label = (m.keymaps.get ⟨t, h⟩).label ∧
      ((m.run w kc).keymaps.get ⟨t, h2⟩).keycode
        = (m.keymaps.get ⟨t, h⟩).keycode ∧
      ((m.run w kc).keymaps.get ⟨t, h2⟩).system
        = (m.keymaps.get ⟨t, h⟩).system ∧
      ((m.keymaps.get ⟨t, h⟩).initialized = true →
        ((m.run w kc).keymaps.get ⟨t, h2⟩).initialized = true) := by
  refine ⟨runFrom_length 0 m.keymaps w kc, ?_⟩
  intro t h h2
  exact runFrom_pres_get 0 m.keymaps w kc t h h2

/-- Witness for C9 on a concrete one-entry table whose key is dispatched. -/
theorem c9_witness :
    ((Keymapper.new [Keymap.new (0 : Nat) 1 failSysN]).run 0 1).keymaps.length
      = 1 ∧
    (((Keymapper.new [Keymap.new (0 : Nat) 1 failSysN]).run 0
        1).keymaps.get ⟨0, by decide⟩).system
      = ([Keymap.new (0 : Nat) 1 failSysN].get ⟨0, by decide⟩).system :=
  ⟨(c9_run_preserves_table (Keymapper.new [Keymap.new 0 1 failSysN]) 0 1).1,
    ((c9_run_preserves_table (Keymapper.new [Keymap.new 0 1 failSysN]) 0 1).2
      0 (by decide) (by decide)).2.2.1⟩

/-- Counterexample to C3 as stated: in the table
`[(key 1, failing), (key 2, ok)]` with frame 1 pressing `{1, 2}` and
frame 2 pressing `{2}`, the second binding's key (2) is in frame 1's
pressed set, yet its initialization does not happen in frame 1 (the
failing binding on key 1 aborts the frame first); it happens in frame 2.
So initialization is not performed "on the first frame its key matches". -/
theorem c3_counterexample :
    (2 : Nat) ∈ ([1, 2] : List Nat) ∧
    (Keymap.new 1 2 okSysN).keycode = 2 ∧
    Event.init 1 ∉
      (runKeycodes [Keymap.new 0 1 failSysN, Keymap.new 1 2 okSysN] 0
        [1, 2]).trace ∧
    Event.init 1 ∈
      (runKeycodes
        (runKeycodes [Keymap.new 0 1 failSysN, Keymap.new 1 2 okSysN] 0
          [1, 2]).keymaps
        (runKeycodes [Keymap.new 0 1 failSysN, Keymap.new 1 2 okSysN] 0
          [1, 2]).world [2]).trace :=
  ⟨by decide, by decide, by decide, by decide⟩

/-- C3 amended: over any sequence of frames, each binding's one-time
initialization (`system.initialize`) is performed at most once in the
binding's entire lifetime — on the first frame in which the dispatch loop
actually reaches it with a matching key, which under fail-fast may be
later than the first frame its key is pressed — and is never repeated. -/
theorem c3_init_at_most_once [DecidableEq K] (kms : List (Keymap L K W E))
    (w : W) (frames : List (List K)) (t : Nat) :
    ((runFrames kms w frames).trace).count (Event.init t) ≤ 1 :=
  runFrames_init_count kms w frames t

/-- Counterexample to C8 as stated: a binding whose callback always fails
still gets `initialized = true` after its first (failing) execution
attempt, although no successful execution attempt ever happened. -/
theorem c8_counterexample :
    (((Keymapper.new [Keymap.new (0 : Nat) 1 failSysN]).run 0
        1).keymaps.get ⟨0, by decide⟩).initialized = true ∧
    ((Keymapper.new [Keymap.new (0 : Nat) 1 failSysN]).run 0 1).error
      = some () :=
  ⟨by decide, by decide⟩

/-- C8 amended: the `initialized` flag starts `false` at construction
(`Keymap::new`), is untouched by `new`/`push`/`remove` (which keep the
affected entries identical), and is mutated only by the Runner, which sets
it to `true` exactly when the binding's callback is first attempted (the
flag becomes true iff it was already true or the run reached the binding
this dispatch, regardless of whether the execution succeeds); in particular
it never goes back from `true` to `false`. -/
theorem c8_initialized_flag [DecidableEq L] [DecidableEq K] :
    (∀ (lab : L) (kc : K) (s : SysCallback W E),
      (Keymap.new lab kc s).initialized = false) ∧
    (∀ (m : Keymapper L K W E) (lab : L) (kc : K) (s : SysCallback W E),
      (m.add_keymap lab kc s).keymaps = m.keymaps ++ [Keymap.new lab kc s]) ∧
    (∀ (m : Keymapper L K W E) (lab : L),
      (m.remove lab).keymaps.Sublist m.keymaps) ∧
    (∀ (m : Keymapper L K W E) (w : W) (kc : K) (t : Nat)
      (h : t < m.keymaps.length) (h2 : t < (m.run w kc).keymaps.length),
      (((m.run w kc).keymaps.get ⟨t, h2⟩).initialized = true ↔
        ((m.keymaps.get ⟨t, h⟩).initialized = true ∨
          Event.exec t ∈ (m.run w kc).trace))) := by
  refine ⟨fun _ _ _ => rfl, fun _ _ _ _ => rfl,
    fun m lab => List.filter_sublist m.keymaps, ?_⟩
  intro m w kc t h h2
  have hx := runFrom_initialized_get 0 m.keymaps w kc t h h2
  simpa using hx

/-- Witness for C8 amended on concrete tables: a fresh keymap's flag is
false, and after a dispatch that reaches a binding its flag is true. -/
theorem c8_witness :
    (Keymap.new (0 : Nat) (1 : Nat) okSysN).initialized = false ∧
    ((((Keymapper.new [Keymap.new (0 : Nat) 1 okSysN]).run 0
        1).keymaps.get ⟨0, by decide⟩).initialized = true ↔
      (([Keymap.new (0 : Nat) 1 okSysN].get ⟨0, by decide⟩).initialized = true
        ∨ Event.exec 0 ∈
            ((Keymapper.new [Keymap.new (0 : Nat) 1 okSysN]).run 0
              1).trace)) :=
  ⟨(@c8_initialized_flag Nat Nat Nat Unit _ _).1 0 1 okSysN,
    (@c8_initialized_flag Nat Nat Nat Unit _ _).2.2.2
      (Keymapper.new [Keymap.new 0 1 okSysN]) 0 1 0
      (by decide) (by decide)⟩

/-- Counterexample to C1 as stated: table `[(key 1, failing), (key 2, ok)]`,
frame presses `{1, 2}`.  The second binding's key (2) is just-pressed and
no earlier binding with the same key failed (the only earlier binding has
key 1), yet its callback executes zero times that frame, because the
failing binding on key 1 aborted the whole frame's dispatch. -/
theorem c1_counterexample :
    (Keymap.new 0 1 failSysN).keycode ≠ 2 ∧
    (Keymap.new 1 2 okSysN).keycode = 2 ∧
    (2 : Nat) ∈ ([1, 2] : List Nat) ∧
    ((keymaps_runner_system [1, 2]
        (Keymapper.new [Keymap.new 0 1 failSysN, Keymap.new 1 2 okSysN])
        0).trace).count (Event.exec 1) = 0 :=
  ⟨by decide, by decide, by decide, by decide⟩

/-- C1 amended: if binding `t`'s key `k` is in the frame's just-pressed key
set (with no duplicates), every binding matching a key dispatched before
`k` never fails, and every earlier binding with the same key `k` never
fails, then binding `t`'s callback executes exactly once in that frame —
failures at or after binding `t` itself do not change this count. -/
theorem c1_exec_exactly_once [DecidableEq K] (kms : List (Keymap L K W E))
    (w : W) (p1 p2 : List K) (k : K) (t : Nat) (h : t < kms.length)
    (hkt : (kms.get ⟨t, h⟩).keycode = k) (hnp1 : k ∉ p1) (hnp2 : k ∉ p2)
    (hp1 : ∀ kc ∈ p1, ∀ km ∈ kms, km.keycode = kc → neverFails km.system)
    (hpre : ∀ km ∈ kms.take t, km.keycode = k → neverFails km.system) :
    ((keymaps_runner_system (p1 ++ k :: p2) (Keymapper.new kms) w).trace).count
      (Event.exec t) = 1 := by
  have hx := runKeycodes_count_exec kms w p1 p2 k t h hkt hnp1 hnp2 hp1 hpre
  simpa [keymaps_runner_system, Keymapper.new] using hx

/-- Witness for C1 amended: a single binding on key 5 executes exactly once
when 5 is the frame's only just-pressed key. -/
theorem c1_witness :
    ((keymaps_runner_system [5]
        (Keymapper.new [Keymap.new (0 : Nat) 5 okSysN]) 0).trace).count
      (Event.exec 0) = 1 :=
  c1_exec_exactly_once [Keymap.new 0 5 okSysN] 0 [] [] 5 0 (by decide)
    (by decide) (by decide) (by decide) (by simp) (by simp)

/-- Counterexample to C5 as stated: two bindings share key 5 and key 5 is
dispatched, but only the first callback executes (and fails); the second
callback does not execute that frame, refuting "all of those bindings'
callbacks execute". -/
theorem c5_counterexample :
    (Keymap.new 0 5 failSysN).keycode = 5 ∧
    (Keymap.new 1 5 okSysN).keycode = 5 ∧
    Event.exec 0 ∈
      ((Keymapper.new [Keymap.new 0 5 failSysN, Keymap.new 1 5 okSysN]).run 0
        5).trace ∧
    Event.exec 1 ∉
      ((Keymapper.new [Keymap.new 0 5 failSysN, Keymap.new 1 5 okSysN]).run 0
        5).trace :=
  ⟨by decide, by decide, by decide, by decide⟩

/-- C5 amended: when the dispatched key's matching callbacks all succeed,
the sequence of callback executions in the dispatch is exactly the list of
table indices whose keycode matches, in strictly increasing table
(insertion) order — so every binding on the pressed key executes, in the
order the bindings appear in the table. -/
theorem c5_same_key_in_table_order [DecidableEq K] (m : Keymapper L K W E)
    (w : W) (kc : K)
    (hok : ∀ km ∈ m.keymaps, km.keycode = kc → neverFails km.system) :
    ((m.run w kc).trace).filterMap execIdx = matchIdxs 0 m.keymaps kc ∧
    (matchIdxs 0 m.keymaps kc).Pairwise (· < ·) ∧
    (∀ t (h : t < m.keymaps.length),
      (t ∈ matchIdxs 0 m.keymaps kc ↔ (m.keymaps.get ⟨t, h⟩).keycode = kc)) := by
  refine ⟨runFrom_filterMap_execIdx 0 m.keymaps w kc hok,
    matchIdxs_pairwise 0 m.keymaps kc, ?_⟩
  intro t h
  have hx := matchIdxs_mem 0 t m.keymaps kc h
  simpa using hx

/-- Witness for C5 amended on a concrete table with two bindings on key 5:
the execution sequence is `[0, 1]` and index 1 is a match. -/
theorem c5_witness :
    ((Keymapper.new [Keymap.new (0 : Nat) 5 okSysN, Keymap.new 1 5
        okSysN]).run 0 5).trace.filterMap execIdx
      = matchIdxs 0 [Keymap.new (0 : Nat) 5 okSysN, Keymap.new 1 5 okSysN] 5 ∧
    ((1 : Nat) ∈ matchIdxs 0
        [Keymap.new (0 : Nat) 5 okSysN, Keymap.new 1 5 okSysN] 5 ↔
      (([Keymap.new (0 : Nat) 5 okSysN, Keymap.new 1 5 okSysN].get
        ⟨1, by decide⟩).keycode = 5)) := by
  have hok : ∀ km ∈ (Keymapper.new [Keymap.new (0 : Nat) 5 okSysN,
      Keymap.new 1 5 okSysN]).keymaps, km.keycode = 5 →
      neverFails km.system := by
    intro km hkm _
    rcases List.mem_cons.1 hkm with rfl | hkm
    · exact fun w => rfl
    · rcases List.mem_cons.1 hkm with rfl | hkm
      · exact fun w => rfl
      · simp at hkm
  exact ⟨(c5_same_key_in_table_order _ 0 5 hok).1,
    (c5_same_key_in_table_order _ 0 5 hok).2.2 1 (by decide)⟩

/-- C6: within a frame, whenever a callback's execution event is followed
by anything at all, the immediately following event is that same binding's
deferred-mutation application, and every deferred-application event is
immediately preceded by its own binding's execution — deferred mutations
are applied right after each callback, before the next binding is
initialized or executed, and are never batched across bindings. -/
theorem c6_deferred_applied_immediately [DecidableEq K]
    (m : Keymapper L K W E) (w : W) (ps : List K) (t1 t2 : List Event)
    (j : Nat) :
    ((keymaps_runner_system ps m w).trace = t1 ++ Event.exec j :: t2 →
      t2 = [] ∨ ∃ t3, t2 = Event.applyDef j :: t3) ∧
    ((keymaps_runner_system ps m w).trace = t1 ++ Event.applyDef j :: t2 →
      t1.getLast? = some (Event.exec j)) := by
  have hs := runKeycodes_traceShape m.keymaps w ps
  constructor
  · intro heq
    exact traceShape_exec_next hs t1 j t2
      (by simpa [keymaps_runner_system] using heq)
  · intro heq
    exact traceShape_applyDef_prev hs t1 j t2
      (by simpa [keymaps_runner_system] using heq)

/-- Witness for C6 on a concrete one-binding frame whose trace is
`[init 0, exec 0, applyDef 0]`. -/
theorem c6_witness :
    (([Event.applyDef 0] : List Event) = [] ∨
      ∃ t3, ([Event.applyDef 0] : List Event) = Event.applyDef 0 :: t3) ∧
    ([Event.init 0, Event.exec 0] : List Event).getLast?
      = some (Event.exec 0) :=
  ⟨(c6_deferred_applied_immediately
      (Keymapper.new [Keymap.new (0 : Nat) 5 okSysN]) 0 [5]
      [Event.init 0] [Event.applyDef 0] 0).1 (by decide),
    (c6_deferred_applied_immediately
      (Keymapper.new [Keymap.new (0 : Nat) 5 okSysN]) 0 [5]
      [Event.init 0, Event.exec 0] [] 0).2 (by decide)⟩

/-- C2: fail-fast semantics.  If every binding before `km` that matches the
dispatched key never fails, `km` matches and always fails, then the frame's
dispatch yields an error `e`: it is propagated out of the dispatch loop and
logged exactly once at the runner's boundary, no binding after `km` in
dispatch order executes that frame (all executed indices are at most `km`'s
index, and the trace ends at `km`'s failing execution), and the portion of
the table after the failure point is untouched.  In particular, of two
bindings on the same key where the first fails, the second does not
execute that frame. -/
theorem c2_fail_fast [DecidableEq K] (pre post : List (Keymap L K W E))
    (km : Keymap L K W E) (w : W) (kc : K) (rest : List K)
    (hpre : ∀ p ∈ pre, p.keycode = kc → neverFails p.system)
    (hkm : km.keycode = kc) (hfail : alwaysFails km.system) :
    ∃ e, (runKeycodes (pre ++ km :: post) w (kc :: rest)).error = some e ∧
      (keymaps_runner_system (kc :: rest)
        (Keymapper.new (pre ++ km :: post)) w).logged = [e] ∧
      (∀ j, Event.exec j ∈ (keymaps_runner_system (kc :: rest)
        (Keymapper.new (pre ++ km :: post)) w).trace → j ≤ pre.length) ∧
      ((keymaps_runner_system (kc :: rest)
        (Keymapper.new (pre ++ km :: post)) w).trace).getLast?
        = some (Event.exec pre.length) ∧
      (keymaps_runner_system (kc :: rest)
        (Keymapper.new (pre ++ km :: post)) w).keymaps.drop (pre.length + 1)
        = post := by
  obtain ⟨pre1, w1, tr1, hkm_eq, htr, herr, hpres, hidx⟩ :=
    runFrom_append_ok 0 pre (km :: post) w kc hpre
  simp only [Nat.zero_add] at hkm_eq htr herr hidx
  rcases hrun : km.system.run (initWorld km w1) with ⟨w2, oe⟩
  obtain ⟨e, he⟩ : ∃ e, oe = some e := by
    have hx := hfail (initWorld km w1)
    rw [hrun] at hx
    cases oe with
    | none => exact absurd rfl hx
    | some e => exact ⟨e, rfl⟩
  subst he
  have hdeep_tr : (runFrom pre.length (km :: post) w1 kc).trace
      = initTrace km pre.length ++ [Event.exec pre.length] := by
    simp [runFrom, if_pos hkm, hrun]
  have hdeep_err : (runFrom pre.length (km :: post) w1 kc).error
      = some e := by
    simp [runFrom, if_pos hkm, hrun]
  have hdeep_km : (runFrom pre.length (km :: post) w1 kc).keymaps
      = { km with initialized := true } :: post := by
    simp [runFrom, if_pos hkm, hrun]
  have herr2 : (runFrom 0 (pre ++ km :: post) w kc).error = some e := by
    rw [herr, hdeep_err]
  have htr2 : (runFrom 0 (pre ++ km :: post) w kc).trace
      = tr1 ++ initTrace km pre.length ++ [Event.exec pre.length] := by
    rw [htr, hdeep_tr, ← List.append_assoc]
  refine ⟨e, ?_, ?_, ?_, ?_, ?_⟩
  · simp only [runKeycodes, herr2]
  · simp [keymaps_runner_system, Keymapper.new, runKeycodes, herr2]
  · intro j hj
    simp only [keymaps_runner_system, Keymapper.new, runKeycodes, herr2]
      at hj
    rw [htr2] at hj
    rcases List.mem_append.1 hj with hj | hj
    · rcases List.mem_append.1 hj with hj | hj
      · have hx := hidx _ hj
        simp only [Event.idx] at hx
        omega
      · have hv := mem_initTrace hj
        simp at hv
    · have hv := List.mem_singleton.1 hj
      simp only [Event.exec.injEq] at hv
      omega
  · simp only [keymaps_runner_system, Keymapper.new, runKeycodes, herr2]
    rw [htr2]
    exact List.getLast?_concat _
  · simp only [keymaps_runner_system, Keymapper.new, runKeycodes, herr2]
    rw [hkm_eq, hdeep_km, List.append_cons]
    have h12 := hpres.length_eq
    refine List.drop_left' ?_
    simp only [List.length_append, List.length_cons, List.length_nil]
    omega

/-- Witness for C2: a concrete table `[failing@5, ok@5]`, frame pressing
only key 5 — the frame's trace ends at the failing first binding's
execution. -/
theorem c2_witness :
    ((keymaps_runner_system [5]
        (Keymapper.new [Keymap.new (0 : Nat) 5 failSysN,
          Keymap.new 1 5 okSysN]) 0).trace).getLast?
      = some (Event.exec 0) := by
  obtain ⟨e, -, -, -, hlast, -⟩ :=
    c2_fail_fast [] [Keymap.new (1 : Nat) 5 okSysN]
      (Keymap.new (0 : Nat) 5 failSysN) 0 5 [] (by simp) rfl
      (fun w hx => Option.noConfusion hx)
  simpa using hlast

/-- C10: when a matching binding's callback execution fails, its
`apply_deferred` step is skipped for that frame, and no later binding is
initialized, executed, or has deferred mutations applied in that frame. -/
theorem c10_error_skips_apply_deferred [DecidableEq K]
    (pre post : List (Keymap L K W E)) (km : Keymap L K W E) (w : W) (kc : K)
    (rest : List K)
    (hpre : ∀ p ∈ pre, p.keycode = kc → neverFails p.system)
    (hkm : km.keycode = kc) (hfail : alwaysFails km.system) :
    Event.applyDef pre.length ∉ (keymaps_runner_system (kc :: rest)
      (Keymapper.new (pre ++ km :: post)) w).trace ∧
    ∀ j, pre.length < j →
      Event.init j ∉ (keymaps_runner_system (kc :: rest)
        (Keymapper.new (pre ++ km :: post)) w).trace ∧
      Event.exec j ∉ (keymaps_runner_system (kc :: rest)
        (Keymapper.new (pre ++ km :: post)) w).trace ∧
      Event.applyDef j ∉ (keymaps_runner_system (kc :: rest)
        (Keymapper.new (pre ++ km :: post)) w).trace := by
  obtain ⟨pre1, w1, tr1, hkm_eq, htr, herr, hpres, hidx⟩ :=
    runFrom_append_ok 0 pre (km :: post) w kc hpre
  simp only [Nat.zero_add] at hkm_eq htr herr hidx
  rcases hrun : km.system.run (initWorld km w1) with ⟨w2, oe⟩
  obtain ⟨e, he⟩ : ∃ e, oe = some e := by
    have hx := hfail (initWorld km w1)
    rw [hrun] at hx
    cases oe with
    | none => exact absurd rfl hx
    | some e => exact ⟨e, rfl⟩
  subst he
  have hdeep_tr : (runFrom pre.length (km :: post) w1 kc).trace
      = initTrace km pre.length ++ [Event.exec pre.length] := by
    simp [runFrom, if_pos hkm, hrun]
  have hdeep_err : (runFrom pre.length (km :: post) w1 kc).error
      = some e := by
    simp [runFrom, if_pos hkm, hrun]
  have herr2 : (runFrom 0 (pre ++ km :: post) w kc).error = some e := by
    rw [herr, hdeep_err]
  have htr2 : (runFrom 0 (pre ++ km :: post) w kc).trace
      = tr1 ++ initTrace km pre.length ++ [Event.exec pre.length] := by
    rw [htr, hdeep_tr, ← List.append_assoc]
  have htrS : (keymaps_runner_system (kc :: rest)
      (Keymapper.new (pre ++ km :: post)) w).trace
      = tr1 ++ initTrace km pre.length ++ [Event.exec pre.length] := by
    simp only [keymaps_runner_system, Keymapper.new, runKeycodes, herr2]
    exact htr2
  constructor
  · intro hmem
    rw [htrS] at hmem
    rcases List.mem_append.1 hmem with hmem | hmem
    · rcases List.mem_append.1 hmem with hmem | hmem
      · have hx := hidx _ hmem
        simp only [Event.idx] at hx
        omega
      · have hv := mem_initTrace hmem
        simp at hv
    · have hv := List.mem_singleton.1 hmem
      simp at hv
  · intro j hj
    refine ⟨?_, ?_, ?_⟩ <;> intro hmem <;> rw [htrS] at hmem <;>
      rcases List.mem_append.1 hmem with hmem | hmem
    · rcases List.mem_append.1 hmem with hmem | hmem
      · have hx := hidx _ hmem
        simp only [Event.idx] at hx
        omega
      · have hv := mem_initTrace hmem
        simp only [Event.init.injEq] at hv
        omega
    · have hv := List.mem_singleton.1 hmem
      simp at hv
    · rcases List.mem_append.1 hmem with hmem | hmem
      · have hx := hidx _ hmem
        simp only [Event.idx] at hx
        omega
      · have hv := mem_initTrace hmem
        simp at hv
    · have hv := List.mem_singleton.1 hmem
      simp only [Event.exec.injEq] at hv
      omega
    · rcases List.mem_append.1 hmem with hmem | hmem
      · have hx := hidx _ hmem
        simp only [Event.idx] at hx
        omega
      · have hv := mem_initTrace hmem
        simp at hv
    · have hv := List.mem_singleton.1 hmem
      simp at hv

/-- Witness for C10 on the concrete table `[failing@5, ok@5]` with key 5
pressed: the failing binding's deferred application is skipped and the
second binding does not execute. -/
theorem c10_witness :
    Event.applyDef 0 ∉ (keymaps_runner_system [5]
      (Keymapper.new [Keymap.new (0 : Nat) 5 failSysN,
        Keymap.new 1 5 okSysN]) 0).trace ∧
    Event.exec 1 ∉ (keymaps_runner_system [5]
      (Keymapper.new [Keymap.new (0 : Nat) 5 failSysN,
        Keymap.new 1 5 okSysN]) 0).trace := by
  have hx := c10_error_skips_apply_deferred []
    [Keymap.new (1 : Nat) 5 okSysN] (Keymap.new (0 : Nat) 5 failSysN) 0 5 []
    (by simp) rfl (fun w hy => Option.noConfusion hy)
  exact ⟨by simpa using hx.1, by simpa using (hx.2 1 (by decide)).2.1⟩

theorem runFrom_fail_error [DecidableEq K] (i : Nat)
    (kms : List (Keymap L K W E)) (w : W) (kc : K) (t : Nat)
    (h : t < kms.length) (hkt : (kms.get ⟨t, h⟩).keycode = kc)
    (hfail : alwaysFails (kms.get ⟨t, h⟩).system)
    (hpre : ∀ km ∈ kms.take t, km.keycode = kc → neverFails km.system) :
    (runFrom i kms w kc).error ≠ none := by
  induction kms generalizing i w t with
  | nil => simp at h
  | cons km rest ih =>
    cases t with
    | zero =>
      have hkc : km.keycode = kc := by simpa using hkt
      have hf : alwaysFails km.system := by simpa using hfail
      rcases hrun : km.system.run (initWorld km w) with ⟨w2, oe⟩
      obtain ⟨e, he⟩ : ∃ e, oe = some e := by
        have hx := hf (initWorld km w)
        rw [hrun] at hx
        cases oe with
        | none => exact absurd rfl hx
        | some e => exact ⟨e, rfl⟩
      subst he
      simp [runFrom, if_pos hkc, hrun]
    | succ t =>
      have hkt2 : (rest.get ⟨t, by simpa using h⟩).keycode = kc := by
        simpa using hkt
      have hf2 : alwaysFails (rest.get ⟨t, by simpa using h⟩).system := by
        simpa using hfail
      by_cases hkc : km.keycode = kc
      · have hnf : neverFails km.system :=
          hpre km (by simp [List.take_succ_cons]) hkc
        rcases hrun : km.system.run (initWorld km w) with ⟨w2, oe⟩
        have hnone : oe = none := by
          have hx := hnf (initWorld km w)
          rw [hrun] at hx
          exact hx
        subst hnone
        simp only [runFrom, if_pos hkc, hrun]
        exact ih (i+1) _ t (by simpa using h) hkt2 hf2
          (fun q hq => hpre q (by simp [List.take_succ_cons, hq]))
      · simp only [runFrom, if_neg hkc]
        exact ih (i+1) w t (by simpa using h) hkt2 hf2
          (fun q hq => hpre q (by simp [List.take_succ_cons, hq]))

theorem runKeycodes_fail_error [DecidableEq K] (kms : List (Keymap L K W E))
    (w : W) (q1 q2 : List K) (k : K) (t : Nat) (h : t < kms.length)
    (hkt : (kms.get ⟨t, h⟩).keycode = k)
    (hfail : alwaysFails (kms.get ⟨t, h⟩).system)
    (hpre : ∀ km ∈ kms.take t, km.keycode = k → neverFails km.system)
    (hp1 : ∀ kc ∈ q1, ∀ km ∈ kms, km.keycode = kc → neverFails km.system)
    (h1 : k ∉ q1) :
    (runKeycodes kms w (q1 ++ k :: q2)).error ≠ none := by
  induction q1 generalizing kms w with
  | nil =>
    have hfe := runFrom_fail_error 0 kms w k t h hkt hfail hpre
    cases hre : (runFrom 0 kms w k).error with
    | none => exact absurd hre hfe
    | some e => simp [runKeycodes, hre]
  | cons kc q1' ih =>
    have hre : (runFrom 0 kms w kc).error = none :=
      runFrom_error_none 0 kms w kc (hp1 kc (by simp))
    simp only [List.cons_append, runKeycodes, hre]
    have h2 : t < (runFrom 0 kms w kc).keymaps.length := by
      rw [runFrom_length]
      exact h
    have hpg := runFrom_pres_get 0 kms w kc t h h2
    refine ih _ _ h2 (by rw [hpg.2.1]; exact hkt)
      (by rw [hpg.2.2.1]; exact hfail) ?_ ?_ (fun hx => h1 (by simp [hx]))
    · intro km' hkm' hcode
      obtain ⟨km0, hkm0, hp⟩ := forall₂_pres_mem
        (List.forall₂_take t (runFrom_pres 0 kms w kc)) km' hkm'
      rw [hp.2.2.1]
      exact hpre km0 hkm0 (by rw [← hp.2.1]; exact hcode)
    · intro kc' hkc' km' hkm' hcode
      obtain ⟨km0, hkm0, hp⟩ := forall₂_pres_mem (runFrom_pres 0 kms w kc)
        km' hkm'
      rw [hp.2.2.1]
      exact hp1 kc' (by simp [hkc']) km0 hkm0 (by rw [← hp.2.1]; exact hcode)

theorem others_never_fails [DecidableEq K] (kms : List (Keymap L K W E))
    (t : Nat) (k : K) (h : t < kms.length)
    (hkt : (kms.get ⟨t, h⟩).keycode = k)
    (hothers : ∀ j (hj : j < kms.length), j ≠ t →
      neverFails (kms.get ⟨j, hj⟩).system) :
    ∀ kc, kc ≠ k → ∀ km' ∈ kms, km'.keycode = kc →
      neverFails km'.system := by
  intro kc hne km' hkm' hcode
  obtain ⟨⟨j, hj⟩, hget⟩ := List.mem_iff_get.1 hkm'
  by_cases hjt : j = t
  · subst hjt
    rw [hget] at hkt
    have hx : kc = k := by rw [← hcode, hkt]
    exact absurd hx hne
  · have hnf := hothers j hj hjt
    rw [hget] at hnf
    exact hnf

theorem take_never_fails [DecidableEq K] (kms : List (Keymap L K W E))
    (t : Nat) (k : K)
    (hothers : ∀ j (hj : j < kms.length), j ≠ t →
      neverFails (kms.get ⟨j, hj⟩).system) :
    ∀ km' ∈ kms.take t, km'.keycode = k → neverFails km'.system := by
  intro km' hkm' hcode
  obtain ⟨⟨j, hj⟩, hget⟩ := List.mem_iff_get.1 hkm'
  have hj2 := hj
  simp only [List.length_take] at hj2
  have hjlen : j < kms.length := by omega
  have hjt : j ≠ t := by omega
  have hget2 : (kms.take t).get ⟨j, hj⟩ = kms.get ⟨j, hjlen⟩ := by
    simp [List.get_eq_getElem, List.getElem_take]
  rw [hget2] at hget
  have hnf := hothers j hjlen hjt
  rw [hget] at hnf
  exact hnf

/-- If binding `t` matches key `k`, every other binding never fails, and
`k` occurs exactly once in the frame's pressed list, then binding `t`'s
callback is executed during the frame (whether or not it itself fails). -/
theorem exec_reached [DecidableEq K] (kms : List (Keymap L K W E)) (w : W)
    (t : Nat) (k : K) (h : t < kms.length)
    (hkt : (kms.get ⟨t, h⟩).keycode = k)
    (hothers : ∀ j (hj : j < kms.length), j ≠ t →
      neverFails (kms.get ⟨j, hj⟩).system)
    (q1 q2 : List K) (h1 : k ∉ q1) (h2 : k ∉ q2) :
    Event.exec t ∈ (runKeycodes kms w (q1 ++ k :: q2)).trace := by
  have hp1 : ∀ kc ∈ q1, ∀ km ∈ kms, km.keycode = kc →
      neverFails km.system := by
    intro kc hkc
    exact others_never_fails kms t k h hkt hothers kc
      (fun hx => h1 (hx ▸ hkc))
  have hpre := take_never_fails kms t k hothers
  have hcnt := runKeycodes_count_exec kms w q1 q2 k t h hkt h1 h2 hp1 hpre
  have hpos : 0 < ((runKeycodes kms w (q1 ++ k :: q2)).trace).count
      (Event.exec t) := by omega
  exact List.count_pos_iff.1 hpos

/-- C7: a binding whose callback fails is not disabled, removed or altered
in the table.  In a table where binding `t` always fails and every other
binding never fails, a frame in which `t`'s key is pressed executes `t`
and reports a failure; afterwards the binding is still present at the same
position with the same label, keycode and callback, and on a subsequent
frame in which its key is pressed its callback is attempted again. -/
theorem c7_failing_binding_retried [DecidableEq K]
    (kms : List (Keymap L K W E)) (w : W) (t : Nat) (k : K)
    (h : t < kms.length) (hkt : (kms.get ⟨t, h⟩).keycode = k)
    (hfail : alwaysFails (kms.get ⟨t, h⟩).system)
    (hothers : ∀ j (hj : j < kms.length), j ≠ t →
      neverFails (kms.get ⟨j, hj⟩).system)
    (q1 q2 q1' q2' : List K)
    (h1 : k ∉ q1) (h2 : k ∉ q2) (h1' : k ∉ q1') (h2' : k ∉ q2') :
    Event.exec t ∈ (runKeycodes kms w (q1 ++ k :: q2)).trace ∧
    (runKeycodes kms w (q1 ++ k :: q2)).error ≠ none ∧
    (runKeycodes kms w (q1 ++ k :: q2)).keymaps.length = kms.length ∧
    (∃ h3 : t < (runKeycodes kms w (q1 ++ k :: q2)).keymaps.length,
      ((runKeycodes kms w (q1 ++ k :: q2)).keymaps.get ⟨t, h3⟩).label
        = (kms.get ⟨t, h⟩).label ∧
      ((runKeycodes kms w (q1 ++ k :: q2)).keymaps.get ⟨t, h3⟩).keycode
        = (kms.get ⟨t, h⟩).keycode ∧
      ((runKeycodes kms w (q1 ++ k :: q2)).keymaps.get ⟨t, h3⟩).system
        = (kms.get ⟨t, h⟩).system) ∧
    Event.exec t ∈ (runKeycodes (runKeycodes kms w (q1 ++ k :: q2)).keymaps
      (runKeycodes kms w (q1 ++ k :: q2)).world (q1' ++ k :: q2')).trace := by
  have hm1 := exec_reached kms w t k h hkt hothers q1 q2 h1 h2
  have hp1 : ∀ kc ∈ q1, ∀ km ∈ kms, km.keycode = kc →
      neverFails km.system := by
    intro kc hkc
    exact others_never_fails kms t k h hkt hothers kc
      (fun hx => h1 (hx ▸ hkc))
  have herr := runKeycodes_fail_error kms w q1 q2 k t h hkt hfail
    (take_never_fails kms t k hothers) hp1 h1
  have hlen := runKeycodes_length kms w (q1 ++ k :: q2)
  have hlt2 : t < (runKeycodes kms w (q1 ++ k :: q2)).keymaps.length := by
    rw [hlen]
    exact h
  have hpg := runKeycodes_pres_get kms w (q1 ++ k :: q2) t h hlt2
  have hkt2 : ((runKeycodes kms w (q1 ++ k :: q2)).keymaps.get
      ⟨t, hlt2⟩).keycode = k := by
    rw [hpg.2.1]
    exact hkt
  have hothers2 : ∀ j (hj : j <
      (runKeycodes kms w (q1 ++ k :: q2)).keymaps.length), j ≠ t →
      neverFails (((runKeycodes kms w (q1 ++ k :: q2)).keymaps.get
        ⟨j, hj⟩).system) := by
    intro j hj hne
    have hjlen : j < kms.length := by
      rw [← hlen]
      exact hj
    have hpgj := runKeycodes_pres_get kms w (q1 ++ k :: q2) j hjlen hj
    rw [hpgj.2.2.1]
    exact hothers j hjlen hne
  have hm2 := exec_reached (runKeycodes kms w (q1 ++ k :: q2)).keymaps
    (runKeycodes kms w (q1 ++ k :: q2)).world t k hlt2 hkt2 hothers2
    q1' q2' h1' h2'
  exact ⟨hm1, herr, hlen, ⟨hlt2, hpg.1, hpg.2.1, hpg.2.2.1⟩, hm2⟩

/-- Witness for C7: a single always-failing binding on key 5 is executed in
a first frame pressing 5 and executed again in a second frame pressing 5. -/
theorem c7_witness :
    Event.exec 0 ∈ (runKeycodes [Keymap.new (0 : Nat) 5 failSysN] 0
      [5]).trace ∧
    Event.exec 0 ∈ (runKeycodes
      (runKeycodes [Keymap.new (0 : Nat) 5 failSysN] 0 [5]).keymaps
      (runKeycodes [Keymap.new (0 : Nat) 5 failSysN] 0 [5]).world
      [5]).trace := by
  have hx := c7_failing_binding_retried [Keymap.new (0 : Nat) 5 failSysN] 0
    0 5 (by decide) (by decide) (fun w hy => Option.noConfusion hy)
    (fun j hj hne => absurd (Nat.lt_one_iff.1 hj) hne)
    [] [] [] [] (by decide) (by decide) (by decide) (by decide)
  exact ⟨hx.1, hx.2.2.2.2⟩

end BevyKeymapper
